import Mathlib

/-!
# logkit: the sequential file tailer (`reader/seqfile.go`) and the batch builder

A shallow embedding of `SeqFile` and its methods, and of the sender's `unpack`
and `parseUserSchema`.
Every call the Go code makes to the operating system or to the `Meta` checkpoint
collaborator is answered from a script held in `World`; a method returns `none`
only when it asks for an outcome the script no longer holds or, for `Read`, when
its loop has not returned within the given number of passes.
-/

namespace reader

/-- Go `error` values as far as the tailer tells them apart: `io.EOF`, any error
for which `os.IsNotExist` holds, `syscall.EINVAL`, and every other error. -/
inductive Err where
  | eof
  | notExist
  | einval
  | other (msg : String)
  deriving DecidableEq, Repr

/-- Go `os.IsNotExist(err)`; `none` is the nil error. -/
def isNotExist : Option Err → Bool
  | some Err.notExist => true
  | _ => false

/-- The attributes of an `os.FileInfo` the tailer looks at.  `inode` is the value
of `utils.GetInode(fi)`, where 0 stands for an unknown identity. -/
structure FileInfo where
  name : String
  size : Int
  modTime : Int
  inode : Nat
  deriving DecidableEq, Repr

/-- An open `*os.File`. -/
structure File where
  fd : Nat
  deriving DecidableEq, Repr

/-- The two `path/filepath` functions the tailer calls, `Base` and `Join`. -/
structure PathOps where
  base : String → String
  join : String → String → String

/-- The tailer state, `type SeqFile struct`; `f = none` is the nil handle.  The
`meta` pointer is the checkpoint part of `World`. -/
structure SeqFile where
  dir : String
  currFile : String
  f : Option File
  inode : Nat
  offset : Int
  ignoreHidden : Bool
  ignoreFileSuffix : List String
  validFilePattern : String
  stopped : Int
  lastSyncPath : String
  lastSyncOffset : Int
  deriving DecidableEq, Repr

/-- `func (sf *SeqFile) isNewFile(newFileInfo os.FileInfo) bool`. -/
def SeqFile.isNewFile (ops : PathOps) (sf : SeqFile) (newFileInfo : Option FileInfo) : Bool :=
  match newFileInfo with
  | none => false
  | some fi =>
    let newInode := fi.inode
    let newName := fi.name
    let newFsize := fi.size
    if newInode ≠ 0 ∧ sf.inode ≠ 0 ∧ newInode = sf.inode then false
    else if newInode ≠ sf.inode then true
    else if newFsize < sf.offset then true
    else
      let fname := ops.base sf.currFile
      if newName ≠ fname then true
      else false

/-- The characters after the last slash of a path, `acc` holding those seen since
the last slash. -/
def lastElem : List Char → List Char → List Char
  | [], acc => acc
  | c :: cs, acc => if c = Char.ofNat 47 then lastElem cs [] else lastElem cs (acc ++ [c])

/-- A concrete `PathOps` for slash-separated paths: `base` keeps what follows the
last slash, `join` puts a slash between directory and name.  It agrees with
`filepath.Base` and `filepath.Join` on clean paths such as those of the examples
below, not on an empty path or a directory with a trailing slash; the general
theorems hold for every `PathOps`. -/
def slashPath : PathOps where
  base := fun p => String.mk (lastElem p.data [])
  join := fun d n => d ++ "/" ++ n

/-- A cursor in the middle of `/logs/a.log`, with a known inode. -/
def cursorKnown : SeqFile where
  dir := "/logs"
  currFile := "/logs/a.log"
  f := some ⟨3⟩
  inode := 7
  offset := 100
  ignoreHidden := true
  ignoreFileSuffix := []
  validFilePattern := "*"
  stopped := 0
  lastSyncPath := ""
  lastSyncOffset := 0

/-- The same cursor on a platform without inodes (identity unknown). -/
def cursorUnknown : SeqFile := { cursorKnown with inode := 0 }

deriving instance DecidableEq for Except

/-- The sleeps and the Info-level log lines of `Read` and `open`, by call site. -/
inductive Event where
  | sleepNewOpen
  | sleepVanished
  | sleepIdle
  | sleepOpen
  | sleepDoneFile
  | logNextFile (name : String)
  | logStartTail (name : String)
  deriving DecidableEq, Repr

/-- What one `sf.f.Read(p[n:])` on an `*os.File` with a non-empty buffer gives:
`data k` is `k + 1` bytes available (as many as fit are copied) with a nil error,
`eof` is `0, io.EOF`, `fail e` is `0, e`. -/
inductive ReadOutcome where
  | data (more : Nat)
  | eof
  | fail (e : Err)
  deriving DecidableEq, Repr

/-- Everything outside the `SeqFile` struct.  `doneFiles`, `flushed` and
`writeCalls` are the state of the `Meta` checkpoint collaborator; `copied` counts
the bytes file reads have stored into caller buffers; `trace` lists the events so
far; the other fields script the outcomes of the calls still to come, first call
first. -/
structure World where
  doneFiles : List String
  flushed : Option (String × Int)
  writeCalls : List (String × Int)
  writeErrs : List (Option Err)
  appendErrs : List (Option Err)
  closeErrs : List (Option Err)
  opens : List (Except Err File)
  reads : List ReadOutcome
  stats : List (Except Err FileInfo)
  minFiles : List (Except Err (Option FileInfo))
  copied : Nat
  trace : List Event
  deriving DecidableEq

/-- Modelled from the spec: `Meta.WriteOffset(filePath, offset) -> error`, the
durable persist of the Checkpoint collaborator, whose code is not among the
sources.  A successful call makes the pair the flushed one, a failing call
leaves the store as it was. -/
def World.WriteOffset (w : World) (path : String) (offset : Int) : Option (Option Err × World) :=
  match w.writeErrs with
  | [] => none
  | none :: rest =>
    some (none, { w with writeErrs := rest, writeCalls := w.writeCalls ++ [(path, offset)],
                         flushed := some (path, offset) })
  | some e :: rest =>
    some (some e, { w with writeErrs := rest, writeCalls := w.writeCalls ++ [(path, offset)] })

/-- Two's-complement wrap of an `int64` result. -/
def wrapInt64 (x : Int) : Int := (x + 2 ^ 63) % 2 ^ 64 - 2 ^ 63

/-- The end of `nextFile`, from `fi, err = getMinFile(sf.dir, condition,
modTimeLater)` on.  `getMinFile` answers from the script; the condition handed to
it does not constrain the scripted answer. -/
def SeqFile.searchDir (ops : PathOps) (sf : SeqFile) (w : World) :
    Option ((Option FileInfo × Option Err) × World) :=
  match w.minFiles with
  | [] => none
  | Except.error e2 :: mrest => some ((none, some e2), { w with minFiles := mrest })
  | Except.ok fi :: mrest =>
    if sf.isNewFile ops fi then some ((fi, none), { w with minFiles := mrest })
    else some ((none, none), { w with minFiles := mrest })

/-- `func (sf *SeqFile) nextFile() (fi os.FileInfo, err error)`; `os.Stat` answers
from the script. -/
def SeqFile.nextFile (ops : PathOps) (sf : SeqFile) (w : World) :
    Option ((Option FileInfo × Option Err) × World) :=
  match w.stats with
  | [] => none
  | Except.error e :: srest =>
    if ¬ isNotExist (some e) then some ((none, some e), { w with stats := srest })
    else sf.searchDir ops { w with stats := srest }
  | Except.ok _ :: srest => sf.searchDir ops { w with stats := srest }

/-- `func (sf *SeqFile) newOpen() (err error)`. -/
def SeqFile.newOpen (ops : PathOps) (sf : SeqFile) (w : World) :
    Option (Option Err × SeqFile × World) :=
  match sf.nextFile ops w with
  | none => none
  | some ((fi, err1), w1) =>
    if isNotExist err1 then some (some (Err.other "did not find any file in dir"), sf, w1)
    else if err1 ≠ none then some (some (Err.other "read file in dir error"), sf, w1)
    else
      match fi with
      | none => some (some (Err.other "nextfile info in dir is nil"), sf, w1)
      | some fi =>
        let fname := fi.name
        let sf1 := { sf with currFile := ops.join sf.dir fname }
        match w1.opens with
        | [] => none
        | Except.error _ :: rest => some (some (Err.other "os.Open"), sf1, { w1 with opens := rest })
        | Except.ok f :: rest =>
          some (none, { sf1 with f := some f, offset := 0, inode := fi.inode },
                { w1 with opens := rest })

/-- The first `for` loop of `open`: `os.Open` is retried, with a sleep, as long as
it reports not-exist. -/
def openLoop (w : World) : List (Except Err File) → Option (Except Err File × World)
  | [] => none
  | Except.error e :: rest =>
    if isNotExist (some e) then openLoop { w with trace := w.trace ++ [Event.sleepOpen] } rest
    else some (Except.error e, { w with opens := rest })
  | Except.ok f :: rest => some (Except.ok f, { w with opens := rest })

/-- Modelled from the spec: `Meta.AppendDoneFile(filePath) -> error`, the durable
append to the consumed-files log of the Checkpoint collaborator, whose code is
not among the sources.  Given the outcome of the call, a successful call appends
the path to the log and a failing call leaves the log as it was. -/
def AppendDoneFile (doneFiles : List String) (filePath : String) (outcome : Option Err) :
    List String × Option Err :=
  match outcome with
  | none => (doneFiles ++ [filePath], none)
  | some e => (doneFiles, some e)

/-- The second `for` loop of `open`: `sf.meta.AppendDoneFile(doneFile)` is
retried, with a sleep, until it returns nil. -/
def doneFileLoop (doneFile : String) (w : World) : List (Option Err) → Option World
  | [] => none
  | outcome :: rest =>
    match AppendDoneFile w.doneFiles doneFile outcome with
    | (log, some _) =>
      doneFileLoop doneFile
        { w with doneFiles := log, appendErrs := rest, trace := w.trace ++ [Event.sleepDoneFile] }
        rest
    | (log, none) => some { w with doneFiles := log, appendErrs := rest }

/-- The part of `open` up to and including the first loop: close the handle, move
`currFile` to the new path, open it and reset offset and inode.  The result is the
error to return at once, or `none` together with the cursor on the new file. -/
def SeqFile.openSwitch (ops : PathOps) (sf : SeqFile) (w : World) (fi : FileInfo) :
    Option (Option Err × SeqFile × World) :=
  match (match sf.f with
         | none => some (some (Err.other "invalid argument"), w)
         | some _ =>
           match w.closeErrs with
           | [] => none
           | cerr :: crest => some (cerr, { w with closeErrs := crest })) with
  | none => none
  | some (cerr, w1) =>
    if cerr ≠ none ∧ cerr ≠ some Err.einval then some (cerr, sf, w1)
    else
      let fname := fi.name
      let sf1 := { sf with currFile := ops.join sf.dir fname }
      match openLoop w1 w1.opens with
      | none => none
      | some (Except.error e, w2) => some (some e, sf1, w2)
      | some (Except.ok f, w2) =>
        some (none, { sf1 with f := some f, offset := 0, inode := fi.inode },
              { w2 with trace := w2.trace ++ [Event.logStartTail fname] })

/-- `func (sf *SeqFile) open(fi os.FileInfo) (err error)`. -/
def SeqFile.open (ops : PathOps) (sf : SeqFile) (w : World) (fi : Option FileInfo) :
    Option (Option Err × SeqFile × World) :=
  match fi with
  | none => some (none, sf, w)
  | some fi =>
    let doneFile := sf.currFile
    match sf.openSwitch ops w fi with
    | none => none
    | some (some e, sf1, w1) => some (some e, sf1, w1)
    | some (none, sf1, w1) =>
      match doneFileLoop doneFile w1 w1.appendErrs with
      | none => none
      | some w2 => some (none, sf1, w2)

/-- `func (sf *SeqFile) SyncMeta() (err error)`. -/
def SeqFile.SyncMeta (sf : SeqFile) (w : World) : Option (Option Err × SeqFile × World) :=
  if sf.lastSyncOffset = sf.offset ∧ sf.lastSyncPath = sf.currFile then some (none, sf, w)
  else
    let sf1 := { sf with lastSyncOffset := sf.offset, lastSyncPath := sf.currFile }
    match w.WriteOffset sf1.currFile sf1.offset with
    | none => none
    | some (err, w1) => some (err, sf1, w1)

/-- The `return` statements of `Read`, in source order: reader closed, non-EOF
read error, give-up after repeated not-exist reports, other `nextFile` error,
`open` error, no new file (`return 0, io.EOF`), and the final `return` after the
loop. -/
inductive Exit where
  | closed
  | readErr
  | vanished
  | nextFileErr
  | openErr
  | idle
  | full
  deriving DecidableEq, Repr

/-- The values `(n, err)` returned by `Read`, with the `return` that produced them. -/
structure ReadResult where
  n : Nat
  err : Option Err
  exit : Exit
  deriving DecidableEq, Repr

/-- Outcome of one pass through the body of the `for` loop of `Read`: go round
again with the loop variables `n`, `err`, `nextFileRetry`, or return. -/
inductive Step where
  | next (sf : SeqFile) (w : World) (n : Nat) (err : Option Err) (nextFileRetry : Nat)
  | done (r : ReadResult) (sf : SeqFile) (w : World)

/-- The number of bytes `n1` a file read stores into a buffer with `room` bytes left. -/
def ReadOutcome.n1 (ro : ReadOutcome) (room : Nat) : Nat :=
  match ro with
  | ReadOutcome.data more => min (more + 1) room
  | _ => 0

/-- The error a file read returns. -/
def ReadOutcome.err (ro : ReadOutcome) : Option Err :=
  match ro with
  | ReadOutcome.data _ => none
  | ReadOutcome.eof => some Err.eof
  | ReadOutcome.fail e => some e

/-- The loop body of `Read` after a file read that returned `io.EOF`, from
`fi, err1 := sf.nextFile()` on; `err` is the loop variable (`io.EOF` here). -/
def SeqFile.onEOF (ops : PathOps) (sf : SeqFile) (w : World) (n : Nat) (err : Option Err)
    (nextFileRetry : Nat) : Option Step :=
  match sf.nextFile ops w with
  | none => none
  | some ((fi, err1), w2) =>
    if isNotExist err1 then
      if nextFileRetry ≥ 3 then some (Step.done ⟨n, some Err.eof, Exit.vanished⟩ sf w2)
      else
        some (Step.next sf { w2 with trace := w2.trace ++ [Event.sleepVanished] } n err
          (nextFileRetry + 1))
    else if err1 ≠ none then some (Step.done ⟨n, err1, Exit.nextFileErr⟩ sf w2)
    else
      match fi with
      | some fi0 =>
        match sf.open ops { w2 with trace := w2.trace ++ [Event.logNextFile fi0.name] }
            (some fi0) with
        | none => none
        | some (some err2, sf2, w4) => some (Step.done ⟨n, some err2, Exit.openErr⟩ sf2 w4)
        | some (none, sf2, w4) => some (Step.next sf2 w4 n none nextFileRetry)
      | none =>
        some (Step.done ⟨0, some Err.eof, Exit.idle⟩ sf
          { w2 with trace := w2.trace ++ [Event.sleepIdle] })

/-- The loop body of `Read` from `n1, err = sf.f.Read(p[n:])` on; `plen` is
`len(p)` and `n < plen` here. -/
def SeqFile.readFrom (ops : PathOps) (plen : Nat) (sf : SeqFile) (w : World) (n : Nat)
    (nextFileRetry : Nat) : Option Step :=
  match w.reads with
  | [] => none
  | ro :: rrest =>
    let n1 := ro.n1 (plen - n)
    let err := ro.err
    let w1 := { w with reads := rrest, copied := w.copied + n1 }
    let sf1 := { sf with offset := wrapInt64 (sf.offset + (n1 : Int)) }
    if err = none then some (Step.next sf1 w1 (n + n1) err nextFileRetry)
    else if err ≠ some Err.eof then some (Step.done ⟨n + n1, err, Exit.readErr⟩ sf1 w1)
    else sf1.onEOF ops w1 (n + n1) err nextFileRetry

/-- The whole body of the `for n < len(p)` loop of `Read`. -/
def SeqFile.readStep (ops : PathOps) (plen : Nat) (sf : SeqFile) (w : World) (n : Nat)
    (nextFileRetry : Nat) : Option Step :=
  match sf.f with
  | none =>
    if sf.stopped > 0 then
      some (Step.done ⟨0, some (Err.other "reader has been exited"), Exit.closed⟩ sf w)
    else
      match sf.newOpen ops w with
      | none => none
      | some (some e, sf1, w1) =>
        some (Step.next sf1 { w1 with trace := w1.trace ++ [Event.sleepNewOpen] } n (some e)
          nextFileRetry)
      | some (none, sf1, w1) => sf1.readFrom ops plen w1 n nextFileRetry
  | some _ => sf.readFrom ops plen w n nextFileRetry

/-- The `for n < len(p)` loop of `Read`, run for at most `fuel` passes. -/
def readLoop (ops : PathOps) (plen : Nat) :
    Nat → SeqFile → World → Nat → Option Err → Nat → Option (ReadResult × SeqFile × World)
  | 0, _, _, _, _, _ => none
  | fuel + 1, sf, w, n, err, nextFileRetry =>
    if ¬ n < plen then some (⟨n, err, Exit.full⟩, sf, w)
    else
      match sf.readStep ops plen w n nextFileRetry with
      | none => none
      | some (Step.done r sf1 w1) => some (r, sf1, w1)
      | some (Step.next sf1 w1 n1 err1 retry1) => readLoop ops plen fuel sf1 w1 n1 err1 retry1

/-- `func (sf *SeqFile) Read(p []byte) (n int, err error)` for a buffer of length
`plen`, the loop run for at most `fuel` passes. -/
def SeqFile.Read (ops : PathOps) (sf : SeqFile) (w : World) (plen : Nat) (fuel : Nat) :
    Option (ReadResult × SeqFile × World) :=
  readLoop ops plen fuel sf w 0 none 0

/-- Runs `open` on each candidate in turn, every call having to return nil;
gives the paths that were current before each call, in call order, and the final
state. -/
def switches (ops : PathOps) : SeqFile → World → List FileInfo →
    Option (List String × SeqFile × World)
  | sf, w, [] => some ([], sf, w)
  | sf, w, fi :: fis =>
    match sf.open ops w (some fi) with
    | some (none, sf1, w1) =>
      match switches ops sf1 w1 fis with
      | some (paths, r) => some (sf.currFile :: paths, r)
      | none => none
    | _ => none

/-- A world with an empty checkpoint store and nothing scripted. -/
def quietWorld : World where
  doneFiles := []
  flushed := none
  writeCalls := []
  writeErrs := []
  appendErrs := []
  closeErrs := []
  opens := []
  reads := []
  stats := []
  minFiles := []
  copied := 0
  trace := []

/-- A world for one switch: the close succeeds, the new file appears at the
second `os.Open`, and `AppendDoneFile` fails twice before it succeeds. -/
def switchWorld : World :=
  { quietWorld with
    doneFiles := ["/logs/0.log"]
    closeErrs := [none]
    opens := [Except.error Err.notExist, Except.ok ⟨4⟩]
    appendErrs := [some (Err.other "disk full"), some (Err.other "disk full"), none] }

/-- A world whose next `WriteOffset` fails and whose one after succeeds. -/
def failingWriteWorld : World :=
  { quietWorld with writeErrs := [some (Err.other "disk full"), none] }

/-- A world in which the close succeeds and `os.Open` of the new file is refused. -/
def refusedOpenWorld : World :=
  { quietWorld with closeErrs := [none], opens := [Except.error (Err.other "permission denied")] }

/-- The rotated-to file `b.log`. -/
def fileB : FileInfo := ⟨"b.log", 0, 20, 8⟩

/-- The file after that, `c.log`. -/
def fileC : FileInfo := ⟨"c.log", 0, 30, 9⟩

/-- A world for two switches in a row: as `switchWorld`, then a second switch
without any failure. -/
def twoSwitchWorld : World :=
  { switchWorld with
    closeErrs := [none, none]
    opens := [Except.error Err.notExist, Except.ok ⟨4⟩, Except.ok ⟨5⟩]
    appendErrs := [some (Err.other "disk full"), some (Err.other "disk full"), none, none] }

/-- The world `w2` comes after `w` with no byte copied and no sleep of the
not-exist retry of `Read` in between. -/
def World.Quiet (w w2 : World) : Prop :=
  w2.copied = w.copied ∧
    ∃ evs, w2.trace = w.trace ++ evs ∧ evs.count Event.sleepVanished = 0

/-- A world for a `Read` in which the current file has vanished: three times
nothing is found, then `b.log` is found and switched to, then `b.log` has
vanished as well and nothing is found. -/
def vanishWorld : World :=
  { quietWorld with
    reads := [ReadOutcome.eof, ReadOutcome.eof, ReadOutcome.eof, ReadOutcome.eof, ReadOutcome.eof]
    stats := [Except.error Err.notExist, Except.error Err.notExist, Except.error Err.notExist,
      Except.error Err.notExist, Except.error Err.notExist]
    minFiles := [Except.error Err.notExist, Except.error Err.notExist, Except.error Err.notExist,
      Except.ok (some fileB), Except.error Err.notExist]
    closeErrs := [none]
    opens := [Except.ok ⟨4⟩]
    appendErrs := [none] }

/-- A world for a `Read` that copies 5 bytes and then finds the current file
vanished and nothing else in the directory, four times in a row. -/
def abandonedWorld : World :=
  { quietWorld with
    reads := [ReadOutcome.data 4, ReadOutcome.eof, ReadOutcome.eof, ReadOutcome.eof,
      ReadOutcome.eof]
    stats := [Except.error Err.notExist, Except.error Err.notExist, Except.error Err.notExist,
      Except.error Err.notExist]
    minFiles := [Except.error Err.notExist, Except.error Err.notExist,
      Except.error Err.notExist, Except.error Err.notExist] }

/-- A world in which the current file has vanished and `b.log` is found, the
switch to it meeting no failure. -/
def foundWorld : World :=
  { quietWorld with
    stats := [Except.error Err.notExist]
    minFiles := [Except.ok (some fileB)]
    closeErrs := [none]
    opens := [Except.ok ⟨4⟩]
    appendErrs := [none] }

/-- A world for a `Read` that copies 5 bytes, reaches the end of `a.log`, and
finds as the next file only the current one under its rotated name `a.log.1`
(same inode 7), which `isNewFile` does not take for a new file. -/
def idleWorld : World :=
  { quietWorld with
    reads := [ReadOutcome.data 4, ReadOutcome.eof]
    stats := [Except.ok ⟨"a.log", 105, 10, 7⟩]
    minFiles := [Except.ok (some ⟨"a.log.1", 105, 20, 7⟩)] }

/-- A tailer constructed on a directory that held no file: no handle, no current
file, inode and offset 0. -/
def cursorNone : SeqFile :=
  { cursorKnown with currFile := "", f := none, inode := 0, offset := 0 }

/-- A world for a `Read` by `cursorNone`: three times `newOpen` finds nothing, then
it finds and opens `b.log`, which is empty, and from then on nothing newer is
found, four times in a row. -/
def startupWorld : World :=
  { quietWorld with
    reads := [ReadOutcome.eof, ReadOutcome.eof, ReadOutcome.eof, ReadOutcome.eof]
    stats := [Except.error Err.notExist, Except.error Err.notExist, Except.error Err.notExist,
      Except.error Err.notExist, Except.ok fileB, Except.ok fileB, Except.ok fileB,
      Except.ok fileB]
    minFiles := [Except.error Err.notExist, Except.error Err.notExist,
      Except.error Err.notExist, Except.ok (some fileB), Except.error Err.notExist,
      Except.error Err.notExist, Except.error Err.notExist, Except.error Err.notExist]
    opens := [Except.ok ⟨4⟩] }

/-- The world of `abandonedWorld` after four passes of `Read`: 5 bytes copied,
three not-exist reports retried, one more end of file and not-exist report to
come. -/
def fourthReportWorld : World :=
  { quietWorld with
    reads := [ReadOutcome.eof]
    stats := [Except.error Err.notExist]
    minFiles := [Except.error Err.notExist]
    copied := 5
    trace := [Event.sleepVanished, Event.sleepVanished, Event.sleepVanished] }

/-- A world for one pass of `Read` by `cursorNone`: `newOpen` finds and opens
`b.log`, the file read meets end of file, and nothing newer is found. -/
def firstFileWorld : World :=
  { quietWorld with
    reads := [ReadOutcome.eof]
    stats := [Except.error Err.notExist, Except.ok fileB]
    minFiles := [Except.ok (some fileB), Except.error Err.notExist]
    opens := [Except.ok ⟨4⟩] }

/-- Modelled from the spec: the constant `WhenceOldest` (policy `oldest`), declared
outside the sources at hand. -/
def WhenceOldest : String := "oldest"

/-- Modelled from the spec: the constant `WhenceNewest` (policy `newest`), declared
outside the sources at hand. -/
def WhenceNewest : String := "newest"

/-- The outcomes of the calls made while constructing a tailer, each made at most
once: `utils.GetRealPath` (directory, whether a `FileInfo` came back and its
`IsDir`, error), `meta.ReadOffset`, `getMinFile` in `oldestFile`, `getMaxFile`,
`os.Open` and `Seek(0, SEEK_END)` in `newestFile`, `os.Open(currFile)` in
`getStartFile`, and `f.Stat` and `f.Seek(offset, SEEK_SET)` in `NewSeqFile`. -/
structure StartEnv where
  realPath : String × Option Bool × Option Err
  readOffset : String × Int × Option Err
  minFile : Except Err FileInfo
  maxFile : Except Err FileInfo
  newestOpen : Except Err File
  newestSeek : Except Err Int
  openCurr : Except Err File
  stat : Except Err FileInfo
  seek : Option Err

/-- `func oldestFile(logdir, condition) (currFile string, offset int64, err error)`. -/
def oldestFile (ops : PathOps) (env : StartEnv) (logdir : String) : String × Int × Option Err :=
  match env.minFile with
  | Except.error e => ("", 0, some e)
  | Except.ok fi => (ops.join logdir fi.name, 0, none)

/-- `func newestFile(logdir, condition) (currFile string, offset int64, err error)`. -/
def newestFile (ops : PathOps) (env : StartEnv) (logdir : String) : String × Int × Option Err :=
  match env.maxFile with
  | Except.error e => ("", 0, some e)
  | Except.ok fi =>
    let currFile := ops.join logdir fi.name
    match env.newestOpen with
    | Except.error e => (currFile, 0, some e)
    | Except.ok _ =>
      match env.newestSeek with
      | Except.error e => (currFile, 0, some e)
      | Except.ok offset => (currFile, offset, none)

/-- `func getStartFile(path, whence, meta, sf) (f, dir, currFile, offset, err)`. -/
def getStartFile (ops : PathOps) (env : StartEnv) (whence : String) :
    Option File × String × String × Int × Option Err :=
  match env.realPath with
  | (dir, pfi, err) =>
    if err ≠ none ∨ pfi = none then (none, dir, "", 0, err)
    else if pfi ≠ some true then
      (none, dir, "", 0, some (Err.other "the path is not directory"))
    else
      match env.readOffset with
      | (currFile0, offset0, rerr) =>
        let scan : Option (String × Int × Option Err) :=
          if rerr ≠ none then
            if whence = WhenceOldest then some (oldestFile ops env dir)
            else if whence = WhenceNewest then some (newestFile ops env dir)
            else none
          else some (currFile0, offset0, none)
        match scan with
        | none =>
          (none, dir, currFile0, offset0,
            some (Err.other ("reader_whence paramter does not support: " ++ whence)))
        | some (currFile, offset, serr) =>
          if serr ≠ none then
            if isNotExist serr then (none, dir, currFile, offset, none)
            else (none, dir, currFile, offset, some (Err.other "cannot open oldest file"))
          else
            match env.openCurr with
            | Except.error e =>
              if isNotExist (some e) then (none, dir, currFile, offset, none)
              else (none, dir, currFile, offset, some (Err.other "cannot open currfile file"))
            | Except.ok f => (some f, dir, currFile, offset, none)

/-- `func NewSeqFile(meta, path, ignoreHidden, suffixes, validFileRegex, whence)
(sf *SeqFile, err error)`; `none` is the nil `*SeqFile`. -/
def NewSeqFile (ops : PathOps) (env : StartEnv) (ignoreHidden : Bool) (suffixes : List String)
    (validFileRegex : String) (whence : String) : Option SeqFile × Option Err :=
  let sf : SeqFile :=
    { dir := "", currFile := "", f := none, inode := 0, offset := 0,
      ignoreHidden := ignoreHidden, ignoreFileSuffix := suffixes,
      validFilePattern := validFileRegex, stopped := 0, lastSyncPath := "", lastSyncOffset := 0 }
  match getStartFile ops env whence with
  | (f, dir, currFile, offset, err) =>
    if err ≠ none then (some sf, err)
    else
      match f with
      | some f =>
        match env.stat with
        | Except.error e => (none, some e)
        | Except.ok fi =>
          match env.seek with
          | some e => (none, some e)
          | none =>
            (some { sf with inode := fi.inode, f := some f, offset := offset, dir := dir,
                            currFile := currFile }, none)
      | none =>
        (some { sf with inode := 0, f := none, offset := 0, dir := dir, currFile := currFile },
          none)

/-- Construction outcomes for the existing directory `/logs` with a checkpoint
`(/logs/a.log, 5)` that `ReadOffset` restores, and a file that opens. -/
def restoredEnv : StartEnv where
  realPath := ("/logs", some true, none)
  readOffset := ("/logs/a.log", 5, none)
  minFile := Except.ok ⟨"a.log", 100, 10, 7⟩
  maxFile := Except.ok ⟨"b.log", 0, 20, 8⟩
  newestOpen := Except.ok ⟨4⟩
  newestSeek := Except.ok 0
  openCurr := Except.ok ⟨3⟩
  stat := Except.ok ⟨"a.log", 100, 10, 7⟩
  seek := none

/-- The same directory without a checkpoint: `ReadOffset` fails. -/
def freshEnv : StartEnv :=
  { restoredEnv with readOffset := ("", 0, some Err.notExist) }

end reader

namespace sender

/-- One batch of the sender (`datasContext` in the test): the records it holds
and their concatenated encoded bytes (`inputs.Buffer`). -/
structure Batch (α : Type) where
  datas : List α
  buffer : List UInt8
  deriving DecidableEq

/-- Modelled from the spec: the bytes one record adds to a batch, its encoded line
terminated by a newline.  The record encoder itself, whose code is not among the
sources, is the argument `encode`. -/
def pointBytes {α : Type} (encode : α → List UInt8) (d : α) : List UInt8 :=
  encode d ++ [10]

/-- Modelled from the spec: the loop of the sender's `unpack` (BatchBuilder), whose
code is not among the sources.  Each record is encoded and accumulated into the
current batch `cur`; when adding the next record's bytes would exceed the maximum
`maxBatchSize` the current batch is closed (appended to `acc`) and a new one is
started with that record.  An empty current batch is never closed, so a record
that alone exceeds the maximum forms a singleton batch. -/
def unpackLoop {α : Type} (encode : α → List UInt8) (maxBatchSize : Nat) :
    List α → Batch α → List (Batch α) → List (Batch α)
  | [], cur, acc => if cur.datas.isEmpty then acc else acc ++ [cur]
  | d :: ds, cur, acc =>
    let bytes := pointBytes encode d
    if ¬ cur.datas.isEmpty ∧ cur.buffer.length + bytes.length > maxBatchSize then
      unpackLoop encode maxBatchSize ds ⟨[d], bytes⟩ (acc ++ [cur])
    else
      unpackLoop encode maxBatchSize ds ⟨cur.datas ++ [d], cur.buffer ++ bytes⟩ acc

/-- Modelled from the spec: `func (s *PandoraSender) unpack(datas []Data)`, with the
package variable `PandoraMaxBatchSize` as the argument `maxBatchSize`. -/
def unpack {α : Type} (encode : α → List UInt8) (maxBatchSize : Nat) (datas : List α) :
    List (Batch α) :=
  unpackLoop encode maxBatchSize datas ⟨[], []⟩ []

/-- What every batch built by `unpack` satisfies: its buffer is the concatenation
of the bytes of its records, it holds a record, and if its buffer is longer than
the maximum it holds exactly one. -/
def Batch.Built {α : Type} (encode : α → List UInt8) (maxBatchSize : Nat) (b : Batch α) : Prop :=
  b.buffer = (b.datas.map (pointBytes encode)).flatten ∧ b.datas ≠ [] ∧
    (maxBatchSize < b.buffer.length → b.datas.length = 1)

/-- The batch of `j` copies of the record `d`. -/
def uniformBatch {α : Type} (encode : α → List UInt8) (d : α) (j : Nat) : Batch α :=
  ⟨List.replicate j d, (List.replicate j (pointBytes encode d)).flatten⟩

/-- The encoder of the test `TestUnpack`: every record is the line `abcd=efgh`. -/
def testEncode : Unit → List UInt8 :=
  fun _ => [97, 98, 99, 100, 61, 101, 102, 103, 104]

/-- The result of `parseUserSchema` (`UserSchema` in the test): the flag
`DefaultAll` and the Go map `Fields` from field name to alias, held as a list of
key and value pairs with distinct keys, in the order the keys were first set. -/
structure UserSchema where
  DefaultAll : Bool
  Fields : List (String × String)
  deriving DecidableEq, Repr

/-- The Go map assignment `m[k] = v`: a key already there gets the new value in
place, a new key is added at the end. -/
def mapSet : List (String × String) → String → String → List (String × String)
  | [], k, v => [(k, v)]
  | (k0, v0) :: rest, k, v => if k0 = k then (k, v) :: rest else (k0, v0) :: mapSet rest k v

/-- The Go map read `m[k]`, `none` when the key is absent. -/
def mapGet : List (String × String) → String → Option String
  | [], _ => none
  | (k0, v0) :: rest, k => if k0 = k then some v0 else mapGet rest k

/-- Modelled from the spec: the whitespace that separates the tokens of a group,
taken to be the characters for which Go's `unicode.IsSpace` holds. -/
def isSpace (c : Char) : Bool :=
  c.toNat = 32 || (9 ≤ c.toNat && c.toNat ≤ 13) || c.toNat = 133 || c.toNat = 160 ||
    c.toNat = 5760 || (8192 ≤ c.toNat && c.toNat ≤ 8202) || c.toNat = 8232 || c.toNat = 8233 ||
    c.toNat = 8239 || c.toNat = 8287 || c.toNat = 12288

/-- The comma, which separates the groups. -/
def comma : Char := Char.ofNat 44

/-- Modelled from the spec: the comma-separated groups of a schema text, as
`strings.Split(schema, ",")` gives them; the empty text is one empty group. -/
def splitComma : List Char → List (List Char)
  | [] => [[]]
  | c :: cs =>
    if c = comma then [] :: splitComma cs
    else
      match splitComma cs with
      | g :: gs => (c :: g) :: gs
      | [] => [[c]]

/-- Modelled from the spec: the whitespace-separated tokens of a group, as
`strings.Fields` gives them: the maximal runs of characters that are not
whitespace. -/
def fields : List Char → List (List Char)
  | [] => []
  | c :: cs =>
    if isSpace c then fields cs
    else
      match cs with
      | [] => [[c]]
      | d :: _ =>
        if isSpace d then [c] :: fields cs
        else
          match fields cs with
          | t :: ts => (c :: t) :: ts
          | [] => [[c]]

/-- The groups of a schema text, each as its list of tokens. -/
def schemaGroups (schema : String) : List (List String) :=
  (splitComma schema.data).map (fun g => (fields g).map String.mk)

/-- Modelled from the spec: what one group of tokens does to the schema built so
far.  A single token `...` sets `DefaultAll`; any other single token `f` maps
field `f` to alias `f`; two tokens `f a` map field `f` to alias `a`; a group with
any other number of tokens is ignored. -/
def parseGroup (us : UserSchema) (toks : List String) : UserSchema :=
  match toks with
  | [f] =>
    if f = "..." then { us with DefaultAll := true }
    else { us with Fields := mapSet us.Fields f f }
  | [f, a] => { us with Fields := mapSet us.Fields f a }
  | _ => us

/-- Modelled from the spec: `func parseUserSchema(repoName, schema string)
UserSchema` of the sender, whose code is not among the sources (the test calls it
with these two arguments).  An empty or all-blank text gives `DefaultAll = true`
and no field; any other text is taken group by group, starting from
`DefaultAll = false` and no field. -/
def parseUserSchema (_repoName : String) (schema : String) : UserSchema :=
  if schema.data.all isSpace then ⟨true, []⟩
  else (schemaGroups schema).foldl parseGroup ⟨false, []⟩

/-- The entry the spec gives for one group: `f -> f` for a single token other than
`...`, `f -> a` for two tokens, none for any other group. -/
def groupEntry (toks : List String) : Option (String × String) :=
  match toks with
  | [f] => if f = "..." then none else some (f, f)
  | [f, a] => some (f, a)
  | _ => none

/-- The entries of all groups of a schema text, in group order. -/
def schemaEntries (schema : String) : List (String × String) :=
  (schemaGroups schema).filterMap groupEntry

/-- The map after the assignments `m[f] = a` for the given entries, in order. -/
def assignAll (m : List (String × String)) (entries : List (String × String)) :
    List (String × String) :=
  entries.foldl (fun m e => mapSet m e.1 e.2) m

/-- The alias the last of the given entries for field `f` carries, if any. -/
def lastAlias (entries : List (String × String)) (f : String) : Option String :=
  entries.foldl (fun r e => if e.1 = f then some e.2 else r) none

/-- A token: a non-empty run of characters none of which is whitespace or a comma. -/
def validToken (t : List Char) : Prop :=
  t ≠ [] ∧ ∀ c ∈ t, isSpace c = false ∧ c ≠ comma

/-- The spec's grammar of one group, read off the text alone: `GroupText g toks`
says that the text `g` consists of the tokens `toks`, in order, separated by
whitespace.  A group text is empty, or a whitespace character followed by a group
text, or a token that runs to the end, or a token followed by a group text that
starts with a whitespace character. -/
inductive GroupText : List Char → List String → Prop where
  | nil : GroupText [] []
  | space (c : Char) (g : List Char) (toks : List String) :
      isSpace c = true → GroupText g toks → GroupText (c :: g) toks
  | tokEnd (t : List Char) : validToken t → GroupText t [String.mk t]
  | tok (t : List Char) (s : Char) (g : List Char) (toks : List String) :
      validToken t → isSpace s = true → GroupText (s :: g) toks →
      GroupText (t ++ s :: g) (String.mk t :: toks)

/-- The spec's grammar of a schema text, read off the text alone:
`SchemaText cs groups` says that the text `cs` consists of the groups `groups`,
in order, separated by commas. -/
inductive SchemaText : List Char → List (List String) → Prop where
  | last (g : List Char) (toks : List String) : GroupText g toks → SchemaText g [toks]
  | group (g : List Char) (toks : List String) (rest : List Char) (groups : List (List String)) :
      GroupText g toks → SchemaText rest groups →
      SchemaText (g ++ comma :: rest) (toks :: groups)

end sender

namespace reader

/-- Exact characterisation of `isNewFile` on a non-nil candidate. -/
theorem isNewFile_some_iff (ops : PathOps) (sf : SeqFile) (fi : FileInfo) :
    sf.isNewFile ops (some fi) = true ↔
      (fi.inode ≠ sf.inode ∨
        (fi.inode = 0 ∧ sf.inode = 0 ∧ (fi.size < sf.offset ∨ fi.name ≠ ops.base sf.currFile))) := by
  unfold SeqFile.isNewFile
  by_cases h1 : fi.inode = sf.inode
  · by_cases h2 : sf.inode = 0
    · by_cases h3 : fi.size < sf.offset <;> by_cases h4 : fi.name = ops.base sf.currFile <;>
        simp [h1, h2, h3, h4]
    · simp [h1, h2]
  · have h1s : ¬ sf.inode = fi.inode := fun h => h1 h.symm
    by_cases h3 : sf.inode = 0
    · have h2 : fi.inode ≠ 0 := fun h => h1 (h.trans h3.symm)
      simp [h1, h2, h3]
    · simp [h1, h3]


/-- C1 (as stated, refuted): a candidate smaller than the cursor's offset, with the
same known inode 7 and the same name `a.log` as the current file, is reported as
the same file. -/
theorem isNewFile_smaller_same_inode_counterexample :
    (10 : Int) < cursorKnown.offset ∧
      slashPath.base cursorKnown.currFile = "a.log" ∧
      cursorKnown.isNewFile slashPath (some ⟨"a.log", 10, 0, 7⟩) = false := by
  decide

/-- C1 (amended): for a non-nil candidate whose size is smaller than the cursor's
offset, `isNewFile` returns true exactly when the candidate's inode and the
cursor's inode are not one and the same known (non-zero) inode. -/
theorem isNewFile_smaller_size (ops : PathOps) (sf : SeqFile) (fi : FileInfo)
    (hsize : fi.size < sf.offset) :
    sf.isNewFile ops (some fi) = true ↔ ¬ (fi.inode ≠ 0 ∧ sf.inode ≠ 0 ∧ fi.inode = sf.inode) := by
  rw [isNewFile_some_iff]
  constructor
  · rintro (h | ⟨h0, _, _⟩)
    · exact fun hk => h hk.2.2
    · exact fun hk => hk.1 h0
  · intro hk
    by_cases h : fi.inode = sf.inode
    · right
      have h0 : fi.inode = 0 := by
        by_contra hne
        exact hk ⟨hne, fun hs => hne (h.trans hs), h⟩
      exact ⟨h0, h ▸ h0, Or.inl hsize⟩
    · exact Or.inl h

/-- Witness for C1 (amended): a truncated `a.log` seen with unknown inodes. -/
theorem isNewFile_smaller_size_witness :
    (10 : Int) < cursorUnknown.offset ∧
      (cursorUnknown.isNewFile slashPath (some ⟨"a.log", 10, 0, 0⟩) = true ↔
        ¬ ((0 : Nat) ≠ 0 ∧ cursorUnknown.inode ≠ 0 ∧ (0 : Nat) = cursorUnknown.inode)) :=
  ⟨by decide, isNewFile_smaller_size slashPath cursorUnknown ⟨"a.log", 10, 0, 0⟩ (by decide)⟩


/-- The first loop of `open` leaves the checkpoint store and the append script alone. -/
theorem openLoop_meta (w : World) (l : List (Except Err File)) (r : Except Err File) (w' : World)
    (h : openLoop w l = some (r, w')) :
    w'.doneFiles = w.doneFiles ∧ w'.appendErrs = w.appendErrs := by
  induction l generalizing w with
  | nil => simp [openLoop] at h
  | cons x xs ih =>
    cases x with
    | error e =>
      simp only [openLoop] at h
      split at h
      · have hi := ih _ h
        exact hi
      · simp only [Option.some.injEq, Prod.mk.injEq] at h
        obtain ⟨_, rfl⟩ := h
        exact ⟨rfl, rfl⟩
    | ok f =>
      simp only [openLoop, Option.some.injEq, Prod.mk.injEq] at h
      obtain ⟨_, rfl⟩ := h
      exact ⟨rfl, rfl⟩

/-- When the switch part of `open` returns nil, the cursor is on the new file at
offset 0 with the candidate's inode, and the done-file log is untouched. -/
theorem openSwitch_ok (ops : PathOps) (sf : SeqFile) (w : World) (fi : FileInfo)
    (sf1 : SeqFile) (w1 : World) (h : sf.openSwitch ops w fi = some (none, sf1, w1)) :
    sf1.currFile = ops.join sf.dir fi.name ∧ sf1.offset = 0 ∧ sf1.inode = fi.inode ∧
      w1.doneFiles = w.doneFiles ∧ w1.appendErrs = w.appendErrs := by
  unfold SeqFile.openSwitch at h
  split at h
  · simp at h
  · rename_i cerr w0 hc
    have hw0 : w0.doneFiles = w.doneFiles ∧ w0.appendErrs = w.appendErrs := by
      split at hc
      · simp only [Option.some.injEq, Prod.mk.injEq] at hc
        obtain ⟨_, rfl⟩ := hc
        exact ⟨rfl, rfl⟩
      · split at hc
        · simp at hc
        · simp only [Option.some.injEq, Prod.mk.injEq] at hc
          obtain ⟨_, rfl⟩ := hc
          exact ⟨rfl, rfl⟩
    split at h
    · rename_i hne
      simp only [Option.some.injEq, Prod.mk.injEq] at h
      exact absurd h.1 hne.1
    · split at h
      · simp at h
      · simp at h
      · rename_i f w2 hl
        have hm := openLoop_meta _ _ _ _ hl
        simp only [Option.some.injEq, Prod.mk.injEq, true_and] at h
        obtain ⟨rfl, rfl⟩ := h
        exact ⟨rfl, rfl, rfl, hm.1.trans hw0.1, hm.2.trans hw0.2⟩

/-- Whenever the second loop of `open` ends, the script began with some failing
attempts followed by a success, and exactly the one path was appended. -/
theorem doneFileLoop_some (d : String) (w : World) (l : List (Option Err)) (w' : World)
    (h : doneFileLoop d w l = some w') :
    w'.doneFiles = w.doneFiles ++ [d] ∧
      ∃ (fails : List Err), l = fails.map some ++ none :: w'.appendErrs := by
  induction l generalizing w with
  | nil => simp [doneFileLoop] at h
  | cons x xs ih =>
    cases x with
    | none =>
      simp only [doneFileLoop, AppendDoneFile, Option.some.injEq] at h
      subst h
      exact ⟨rfl, [], rfl⟩
    | some e =>
      simp only [doneFileLoop, AppendDoneFile] at h
      obtain ⟨h1, fails, h2⟩ := ih _ h
      exact ⟨h1, e :: fails, by rw [h2]; rfl⟩

/-- After any finite number of failing attempts followed by a success the second
loop of `open` ends, having appended exactly the one path. -/
theorem doneFileLoop_fails (d : String) (fails : List Err) (rest : List (Option Err)) (w : World) :
    ∃ w', doneFileLoop d w (fails.map some ++ none :: rest) = some w' ∧
      w'.doneFiles = w.doneFiles ++ [d] ∧ w'.appendErrs = rest := by
  induction fails generalizing w with
  | nil => exact ⟨_, rfl, rfl, rfl⟩
  | cons e es ih =>
    obtain ⟨w', h1, h2, h3⟩ := ih
      { w with doneFiles := w.doneFiles, appendErrs := es.map some ++ none :: rest,
               trace := w.trace ++ [Event.sleepDoneFile] }
    exact ⟨w', by simpa [doneFileLoop, AppendDoneFile] using h1, h2, h3⟩

/-- A nil return of `open` on a non-nil candidate splits into a nil return of the
switch part followed by a finished done-file loop. -/
theorem open_ok_iff (ops : PathOps) (sf : SeqFile) (w : World) (fi : FileInfo)
    (sf' : SeqFile) (w' : World) :
    sf.open ops w (some fi) = some (none, sf', w') ↔
      ∃ wMid, sf.openSwitch ops w fi = some (none, sf', wMid) ∧
        doneFileLoop sf.currFile wMid wMid.appendErrs = some w' := by
  simp only [SeqFile.open]
  constructor
  · intro h
    split at h
    · simp at h
    · simp at h
    · rename_i sf1 w1 hs
      split at h
      · simp at h
      · rename_i w2 hd
        simp only [Option.some.injEq, Prod.mk.injEq, true_and] at h
        obtain ⟨rfl, rfl⟩ := h
        exact ⟨w1, hs, hd⟩
  · rintro ⟨wMid, hs, hd⟩
    simp only [hs, hd]


/-- Over a run of successful switches the done-file log grows by exactly the
switched-away-from paths, in switch order. -/
theorem switches_log (ops : PathOps) (fis : List FileInfo) (sf : SeqFile) (w : World)
    (paths : List String) (sf' : SeqFile) (w' : World)
    (h : switches ops sf w fis = some (paths, sf', w')) :
    w'.doneFiles = w.doneFiles ++ paths ∧ paths.length = fis.length := by
  induction fis generalizing sf w paths with
  | nil =>
    simp only [switches, Option.some.injEq, Prod.mk.injEq] at h
    obtain ⟨rfl, _, rfl⟩ := h
    simp
  | cons fi fis ih =>
    simp only [switches] at h
    split at h
    · rename_i sf1 w1 ho
      split at h
      · rename_i ps r hr
        simp only [Option.some.injEq, Prod.mk.injEq] at h
        obtain ⟨rfl, rfl⟩ := h
        obtain ⟨wMid, hs, hd⟩ := (open_ok_iff ops sf w fi sf1 w1).1 ho
        have h1 := (doneFileLoop_some _ _ _ _ hd).1
        have h2 := (openSwitch_ok ops sf w fi sf1 wMid hs).2.2.2.1
        have h3 := ih sf1 w1 ps hr
        rw [h3.1, h1, h2]
        simp [h3.2]
      · simp at h
    · simp at h

/-- C2: when `open(fi)` with a non-nil `fi` returns nil, the switch part has first
moved the cursor to the new file (offset 0) with the done-file log untouched, and
the done-file loop then, after the failing `AppendDoneFile` attempts the script
held, appended exactly one entry, the path that was current before the call;
conversely any finite number of failing attempts followed by a success ends the
loop with that one entry appended; and over a run of successful switches the log
grows by exactly the switched-away-from paths in switch order. -/
theorem open_done_file_log (ops : PathOps) (sf : SeqFile) (w : World) (fi : FileInfo) :
    (∀ sf' w', sf.open ops w (some fi) = some (none, sf', w') →
      ∃ (wMid : World) (fails : List Err),
        sf.openSwitch ops w fi = some (none, sf', wMid) ∧
        sf'.currFile = ops.join sf.dir fi.name ∧ sf'.offset = 0 ∧
        wMid.doneFiles = w.doneFiles ∧
        doneFileLoop sf.currFile wMid wMid.appendErrs = some w' ∧
        w.appendErrs = fails.map some ++ none :: w'.appendErrs ∧
        w'.doneFiles = w.doneFiles ++ [sf.currFile]) ∧
    (∀ sfMid wMid (fails : List Err) (rest : List (Option Err)),
      sf.openSwitch ops w fi = some (none, sfMid, wMid) →
      w.appendErrs = fails.map some ++ none :: rest →
      ∃ w', sf.open ops w (some fi) = some (none, sfMid, w') ∧
        w'.doneFiles = w.doneFiles ++ [sf.currFile] ∧ w'.appendErrs = rest) ∧
    (∀ fis paths sf' w', switches ops sf w fis = some (paths, sf', w') →
      w'.doneFiles = w.doneFiles ++ paths ∧ paths.length = fis.length) := by
  refine ⟨?_, ?_, ?_⟩
  · intro sf' w' h
    obtain ⟨wMid, hs, hd⟩ := (open_ok_iff ops sf w fi sf' w').1 h
    have hsw := openSwitch_ok ops sf w fi sf' wMid hs
    obtain ⟨hlog, fails, hfails⟩ := doneFileLoop_some _ _ _ _ hd
    refine ⟨wMid, fails, hs, hsw.1, hsw.2.1, hsw.2.2.2.1, hd, ?_, ?_⟩
    · rw [← hsw.2.2.2.2, hfails]
    · rw [hlog, hsw.2.2.2.1]
  · intro sfMid wMid fails rest hs happ
    have hsw := openSwitch_ok ops sf w fi sfMid wMid hs
    obtain ⟨w', h1, h2, h3⟩ := doneFileLoop_fails sf.currFile fails rest wMid
    refine ⟨w', (open_ok_iff ops sf w fi sfMid w').2 ⟨wMid, hs, ?_⟩, ?_, h3⟩
    · rw [hsw.2.2.2.2, happ]
      exact h1
    · rw [h2, hsw.2.2.2.1]
  · intro fis paths sf' w' h
    exact switches_log ops fis sf w paths sf' w' h

/-- Witness for C2: `a.log` is switched away from to `b.log` with two failing
appends, and then `b.log` to `c.log`. -/
theorem open_done_file_log_witness :
    (∃ sf' w', cursorKnown.open slashPath switchWorld (some fileB) = some (none, sf', w') ∧
      sf'.currFile = "/logs/b.log" ∧ sf'.offset = 0 ∧
      w'.doneFiles = ["/logs/0.log", "/logs/a.log"]) ∧
    (∃ w', cursorKnown.open slashPath switchWorld (some fileB) =
        some (none, { cursorKnown with currFile := "/logs/b.log", f := some ⟨4⟩, offset := 0,
                                       inode := 8 }, w') ∧
      w'.doneFiles = switchWorld.doneFiles ++ [cursorKnown.currFile] ∧ w'.appendErrs = []) ∧
    (∃ sf' w', switches slashPath cursorKnown twoSwitchWorld [fileB, fileC] =
        some (["/logs/a.log", "/logs/b.log"], sf', w') ∧
      w'.doneFiles = ["/logs/0.log", "/logs/a.log", "/logs/b.log"]) := by
  have h1 : cursorKnown.open slashPath switchWorld (some fileB) =
      some (none, { cursorKnown with currFile := "/logs/b.log", f := some ⟨4⟩, offset := 0,
                                     inode := 8 },
        { switchWorld with
          doneFiles := ["/logs/0.log", "/logs/a.log"], closeErrs := [], opens := [],
          appendErrs := []
          trace := [Event.sleepOpen, Event.logStartTail "b.log", Event.sleepDoneFile,
            Event.sleepDoneFile] }) := by decide
  have h2 : cursorKnown.openSwitch slashPath switchWorld fileB =
      some (none, { cursorKnown with currFile := "/logs/b.log", f := some ⟨4⟩, offset := 0,
                                     inode := 8 },
        { switchWorld with
          closeErrs := [], opens := []
          trace := [Event.sleepOpen, Event.logStartTail "b.log"] }) := by decide
  have h3 : switches slashPath cursorKnown twoSwitchWorld [fileB, fileC] =
      some (["/logs/a.log", "/logs/b.log"],
        { cursorKnown with currFile := "/logs/c.log", f := some ⟨5⟩, offset := 0, inode := 9 },
        { twoSwitchWorld with
          doneFiles := ["/logs/0.log", "/logs/a.log", "/logs/b.log"], closeErrs := [],
          opens := [], appendErrs := []
          trace := [Event.sleepOpen, Event.logStartTail "b.log", Event.sleepDoneFile,
            Event.sleepDoneFile, Event.logStartTail "c.log"] }) := by decide
  refine ⟨?_, ?_, ?_⟩
  · obtain ⟨wMid, fails, _, hc, ho, _, _, _, hl⟩ :=
      (open_done_file_log slashPath cursorKnown switchWorld fileB).1 _ _ h1
    exact ⟨_, _, h1, hc, ho, hl⟩
  · exact (open_done_file_log slashPath cursorKnown switchWorld fileB).2.1 _ _
      [Err.other "disk full", Err.other "disk full"] [] h2 rfl
  · obtain ⟨hl, _⟩ :=
      (open_done_file_log slashPath cursorKnown twoSwitchWorld fileB).2.2 [fileB, fileC] _ _ _ h3
    exact ⟨_, _, h3, hl⟩


/-- C3: `SyncMeta` never modifies the cursor (nor any field but the two last-sync
ones), it returns whenever a `WriteOffset` outcome is at hand, and after a
`SyncMeta` that returned nil a further `SyncMeta`, made in any world on a state
with the same current file, offset and last-sync pair, returns nil, leaves the
world as it is (no `WriteOffset` call) and leaves every field unchanged. -/
theorem SyncMeta_idempotent (sf : SeqFile) (w : World) :
    (∀ e sf1 w1, sf.SyncMeta w = some (e, sf1, w1) →
      sf1.currFile = sf.currFile ∧ sf1.offset = sf.offset ∧ sf1.inode = sf.inode ∧
        sf1 = { sf with lastSyncPath := sf1.lastSyncPath, lastSyncOffset := sf1.lastSyncOffset }) ∧
    (w.writeErrs ≠ [] → ∃ r, sf.SyncMeta w = some r) ∧
    (∀ sf1 w1, sf.SyncMeta w = some (none, sf1, w1) →
      ∀ (sf2 : SeqFile) (w2 : World), sf2.currFile = sf1.currFile → sf2.offset = sf1.offset →
        sf2.lastSyncPath = sf1.lastSyncPath → sf2.lastSyncOffset = sf1.lastSyncOffset →
        sf2.SyncMeta w2 = some (none, sf2, w2)) := by
  refine ⟨?_, ?_, ?_⟩
  · intro e sf1 w1 h
    unfold SeqFile.SyncMeta at h
    split at h
    · simp only [Option.some.injEq, Prod.mk.injEq] at h
      obtain ⟨_, rfl, _⟩ := h
      exact ⟨rfl, rfl, rfl, rfl⟩
    · dsimp only at h
      split at h
      · simp at h
      · simp only [Option.some.injEq, Prod.mk.injEq] at h
        obtain ⟨_, rfl, _⟩ := h
        exact ⟨rfl, rfl, rfl, rfl⟩
  · intro hne
    unfold SeqFile.SyncMeta
    split
    · exact ⟨_, rfl⟩
    · cases hw : w.writeErrs with
      | nil => exact absurd hw hne
      | cons x xs => cases x <;> simp [World.WriteOffset, hw]
  · intro sf1 w1 h sf2 w2 hc ho hp hl
    have hsync : sf1.lastSyncOffset = sf1.offset ∧ sf1.lastSyncPath = sf1.currFile := by
      unfold SeqFile.SyncMeta at h
      split at h
      · rename_i hcond
        simp only [Option.some.injEq, Prod.mk.injEq, true_and] at h
        obtain ⟨rfl, _⟩ := h
        exact hcond
      · dsimp only at h
        split at h
        · simp at h
        · simp only [Option.some.injEq, Prod.mk.injEq] at h
          obtain ⟨_, rfl, _⟩ := h
          exact ⟨rfl, rfl⟩
    unfold SeqFile.SyncMeta
    rw [if_pos]
    rw [hl, hp, ho, hc]
    exact hsync

/-- Witness for C3: a first flush of `/logs/a.log` at offset 100 that succeeds, and
the second call on the resulting state. -/
theorem SyncMeta_idempotent_witness :
    ∃ sf1 w1, cursorKnown.SyncMeta { quietWorld with writeErrs := [none] } = some (none, sf1, w1) ∧
      w1.flushed = some ("/logs/a.log", 100) ∧ sf1.currFile = cursorKnown.currFile ∧
      sf1.SyncMeta w1 = some (none, sf1, w1) := by
  have h : cursorKnown.SyncMeta { quietWorld with writeErrs := [none] } =
      some (none, { cursorKnown with lastSyncPath := "/logs/a.log", lastSyncOffset := 100 },
        { quietWorld with writeCalls := [("/logs/a.log", 100)],
                          flushed := some ("/logs/a.log", 100) }) := by decide
  have hne : ({ quietWorld with writeErrs := [none] } : World).writeErrs ≠ [] := by decide
  have h0 := SyncMeta_idempotent cursorKnown { quietWorld with writeErrs := [none] }
  obtain ⟨_, _⟩ := h0.2.1 hne
  exact ⟨_, _, h, rfl, (h0.1 _ _ _ h).1, h0.2.2 _ _ h _ _ rfl rfl rfl rfl⟩

/-- C4 (the code at the failing input): with nothing flushed yet, a `SyncMeta`
whose `WriteOffset` fails returns that error, yet the next `SyncMeta` on the
unchanged cursor returns nil without calling `WriteOffset` (the world, and with
it the one recorded call and the untouched success outcome, stays as it is),
although no pair was ever written successfully. -/
theorem SyncMeta_failed_write_recorded :
    ∃ sf1 w1, cursorKnown.SyncMeta failingWriteWorld =
        some (some (Err.other "disk full"), sf1, w1) ∧
      sf1.currFile = "/logs/a.log" ∧ sf1.offset = 100 ∧
      sf1.SyncMeta w1 = some (none, sf1, w1) ∧
      w1.writeCalls = [("/logs/a.log", 100)] ∧ w1.writeErrs = [none] ∧
      w1.flushed = none := by
  refine ⟨{ cursorKnown with lastSyncPath := "/logs/a.log", lastSyncOffset := 100 },
    { failingWriteWorld with writeCalls := [("/logs/a.log", 100)], writeErrs := [none] },
    ?_, ?_, ?_, ?_, ?_, ?_, ?_⟩ <;> decide

/-- C5 (the code at the failing input): `open` on a cursor at offset 100 of
`/logs/a.log`, with `os.Open` of the new file refused, returns the error and
leaves the cursor on the path `/logs/b.log` with offset 100, inode and handle
those of the old file. -/
theorem open_error_keeps_offset :
    ∃ sf' w', cursorKnown.open slashPath refusedOpenWorld (some fileB) =
        some (some (Err.other "permission denied"), sf', w') ∧
      sf'.currFile = "/logs/b.log" ∧ sf'.currFile ≠ cursorKnown.currFile ∧
      sf'.offset = 100 ∧ sf'.inode = cursorKnown.inode ∧ sf'.f = cursorKnown.f := by
  refine ⟨{ cursorKnown with currFile := "/logs/b.log" },
    { refusedOpenWorld with closeErrs := [], opens := [] }, ?_, ?_, ?_, ?_, ?_, ?_⟩ <;> decide


/-- C9 (as stated, refuted): with an unknown cursor inode (0), a candidate of known
inode 7, same name `a.log` and size 200 not below the offset 100 is reported as a
different file, though none of the three listed cases holds. -/
theorem isNewFile_one_unknown_counterexample :
    cursorUnknown.isNewFile slashPath (some ⟨"a.log", 200, 0, 7⟩) = true ∧
      ¬ (((7 : Nat) ≠ 0 ∧ cursorUnknown.inode ≠ 0 ∧ (7 : Nat) ≠ cursorUnknown.inode) ∨
          (200 : Int) < cursorUnknown.offset ∨
          ((7 : Nat) = cursorUnknown.inode ∧ "a.log" ≠ slashPath.base cursorUnknown.currFile)) := by
  decide

/-- C9 (amended): a nil candidate is never a new file; when `isNewFile` returns true
the two inodes differ (known or not), or the candidate's size is below the offset,
or the inodes are equal and the candidate's name differs from the base name of the
current file; and a candidate for which exactly one of the two inodes is the
unknown 0 is reported as a different file. -/
theorem isNewFile_true_cases (ops : PathOps) (sf : SeqFile) :
    sf.isNewFile ops none = false ∧
    (∀ fi, sf.isNewFile ops (some fi) = true →
      fi.inode ≠ sf.inode ∨ fi.size < sf.offset ∨
        (fi.inode = sf.inode ∧ fi.name ≠ ops.base sf.currFile)) ∧
    (∀ fi, (fi.inode = 0 ∧ sf.inode ≠ 0) ∨ (fi.inode ≠ 0 ∧ sf.inode = 0) →
      sf.isNewFile ops (some fi) = true) := by
  refine ⟨rfl, ?_, ?_⟩
  · intro fi h
    rcases (isNewFile_some_iff ops sf fi).1 h with h | ⟨h0, hs, hsz | hn⟩
    · exact Or.inl h
    · exact Or.inr (Or.inl hsz)
    · exact Or.inr (Or.inr ⟨h0.trans hs.symm, hn⟩)
  · intro fi h
    refine (isNewFile_some_iff ops sf fi).2 (Or.inl ?_)
    rcases h with ⟨h0, hs⟩ | ⟨h0, hs⟩
    · exact fun he => hs (he ▸ h0)
    · exact fun he => h0 (he.trans hs)

/-- Witness for C9 (amended): a renamed file under unknown inodes, and a candidate
of known inode met by a cursor of unknown inode. -/
theorem isNewFile_true_cases_witness :
    ((0 : Nat) ≠ cursorUnknown.inode ∨ (200 : Int) < cursorUnknown.offset ∨
      ((0 : Nat) = cursorUnknown.inode ∧ "b.log" ≠ slashPath.base cursorUnknown.currFile)) ∧
    cursorUnknown.isNewFile slashPath (some ⟨"a.log", 200, 0, 7⟩) = true :=
  ⟨(isNewFile_true_cases slashPath cursorUnknown).2.1 ⟨"b.log", 200, 0, 0⟩ (by decide),
   (isNewFile_true_cases slashPath cursorUnknown).2.2 ⟨"a.log", 200, 0, 7⟩ (by decide)⟩

/-- C10 (as stated, refuted): a candidate with the cursor's known inode 7 and the
different name `b.log` is reported as the same file. -/
theorem isNewFile_renamed_known_inode_counterexample :
    (7 : Nat) = cursorKnown.inode ∧ "b.log" ≠ slashPath.base cursorKnown.currFile ∧
      cursorKnown.isNewFile slashPath (some ⟨"b.log", 200, 0, 7⟩) = false := by
  decide

/-- C10 (amended): for a non-nil candidate whose inode equals the cursor's and whose
name differs from the base name of the current file, `isNewFile` returns true
exactly when that common inode is the unknown 0. -/
theorem isNewFile_renamed (ops : PathOps) (sf : SeqFile) (fi : FileInfo)
    (hinode : fi.inode = sf.inode) (hname : fi.name ≠ ops.base sf.currFile) :
    sf.isNewFile ops (some fi) = true ↔ sf.inode = 0 := by
  rw [isNewFile_some_iff]
  constructor
  · rintro (h | ⟨_, hs, _⟩)
    · exact absurd hinode h
    · exact hs
  · intro hs
    exact Or.inr ⟨hinode.trans hs, hs, Or.inr hname⟩

/-- Witness for C10 (amended): `b.log` met by a cursor on `a.log`, both of unknown
inode. -/
theorem isNewFile_renamed_witness :
    (0 : Nat) = cursorUnknown.inode ∧ "b.log" ≠ slashPath.base cursorUnknown.currFile ∧
      (cursorUnknown.isNewFile slashPath (some ⟨"b.log", 200, 0, 0⟩) = true ↔
        cursorUnknown.inode = 0) :=
  ⟨by decide, by decide,
   isNewFile_renamed slashPath cursorUnknown ⟨"b.log", 200, 0, 0⟩ (by decide) (by decide)⟩

/-- C8 (as stated, refuted): for the existing directory `/logs` and the unsupported
whence `middle`, construction succeeds when `ReadOffset` restores a cursor. -/
theorem NewSeqFile_unsupported_whence_counterexample :
    "middle" ≠ WhenceOldest ∧ "middle" ≠ WhenceNewest ∧
      restoredEnv.realPath = ("/logs", some true, none) ∧
      NewSeqFile slashPath restoredEnv true [] "*" "middle" =
        (some { cursorKnown with offset := 5 }, none) := by
  decide

/-- C8 (amended): for an existing directory and a whence other than the two
supported ones, construction fails with an error whenever `ReadOffset` fails; when
`ReadOffset` succeeds the whence is not looked at, the outcome being that of any
other whence. -/
theorem NewSeqFile_unsupported_whence (ops : PathOps) (env : StartEnv) (ignoreHidden : Bool)
    (suffixes : List String) (validFileRegex whence dir : String)
    (hdir : env.realPath = (dir, some true, none))
    (hold : whence ≠ WhenceOldest) (hnew : whence ≠ WhenceNewest) :
    (env.readOffset.2.2 ≠ none →
      (NewSeqFile ops env ignoreHidden suffixes validFileRegex whence).2 ≠ none) ∧
    (env.readOffset.2.2 = none → ∀ whence2,
      NewSeqFile ops env ignoreHidden suffixes validFileRegex whence =
        NewSeqFile ops env ignoreHidden suffixes validFileRegex whence2) := by
  rcases hro : env.readOffset with ⟨c0, o0, rerr⟩
  constructor
  · intro hr
    have hr2 : rerr ≠ none := by simpa [hro] using hr
    simp [NewSeqFile, getStartFile, hdir, hro, hr2, hold, hnew]
  · intro hr whence2
    have hr2 : rerr = none := by simpa [hro] using hr
    simp [NewSeqFile, getStartFile, hdir, hro, hr2]

/-- Witness for C8 (amended): the directory `/logs` and the whence `middle`, once
without a checkpoint and once with one. -/
theorem NewSeqFile_unsupported_whence_witness :
    freshEnv.realPath = ("/logs", some true, none) ∧ "middle" ≠ WhenceOldest ∧
      "middle" ≠ WhenceNewest ∧ freshEnv.readOffset.2.2 ≠ none ∧
      (NewSeqFile slashPath freshEnv true [] "*" "middle").2 ≠ none ∧
      restoredEnv.readOffset.2.2 = none ∧
      NewSeqFile slashPath restoredEnv true [] "*" "middle" =
        NewSeqFile slashPath restoredEnv true [] "*" WhenceNewest :=
  ⟨rfl, by decide, by decide, by decide,
   (NewSeqFile_unsupported_whence slashPath freshEnv true [] "*" "middle" "/logs" rfl
      (by decide) (by decide)).1 (by decide),
   rfl,
   (NewSeqFile_unsupported_whence slashPath restoredEnv true [] "*" "middle" "/logs" rfl
      (by decide) (by decide)).2 rfl WhenceNewest⟩

end reader

namespace sender

/-- The loop of `unpack` keeps the records in order and builds only batches that
satisfy `Batch.Built`. -/
theorem unpackLoop_spec {α : Type} (encode : α → List UInt8) (M : Nat) (ds : List α) :
    ∀ (cur : Batch α) (acc : List (Batch α)),
      cur.buffer = (cur.datas.map (pointBytes encode)).flatten →
      (M < cur.buffer.length → cur.datas.length = 1) →
      (∀ b ∈ acc, Batch.Built encode M b) →
      ((unpackLoop encode M ds cur acc).map Batch.datas).flatten =
          (acc.map Batch.datas).flatten ++ (cur.datas ++ ds) ∧
        ∀ b ∈ unpackLoop encode M ds cur acc, Batch.Built encode M b := by
  induction ds with
  | nil =>
    intro cur acc hbuf hlen hacc
    unfold unpackLoop
    by_cases he : cur.datas = []
    · simp only [he, List.isEmpty_nil, if_true, List.nil_append, List.append_nil]
      exact ⟨trivial, hacc⟩
    · simp only [List.isEmpty_eq_true, he, if_false]
      refine ⟨by simp, ?_⟩
      intro b hb
      rcases List.mem_append.1 hb with hb | hb
      · exact hacc b hb
      · rw [List.mem_singleton.1 hb]
        exact ⟨hbuf, he, hlen⟩
  | cons d ds ih =>
    intro cur acc hbuf hlen hacc
    unfold unpackLoop
    by_cases hc : ¬ cur.datas.isEmpty = true ∧
        cur.buffer.length + (pointBytes encode d).length > M
    · dsimp only
      rw [if_pos hc]
      have he : cur.datas ≠ [] := by simpa using hc.1
      obtain ⟨h1, h2⟩ := ih ⟨[d], pointBytes encode d⟩ (acc ++ [cur]) (by simp)
        (fun _ => rfl) (by
          intro b hb
          rcases List.mem_append.1 hb with hb | hb
          · exact hacc b hb
          · rw [List.mem_singleton.1 hb]
            exact ⟨hbuf, he, hlen⟩)
      refine ⟨?_, h2⟩
      rw [h1]
      simp
    · dsimp only
      rw [if_neg hc]
      obtain ⟨h1, h2⟩ := ih ⟨cur.datas ++ [d], cur.buffer ++ pointBytes encode d⟩ acc
        (by simp [hbuf]) (by
          intro hlong
          by_cases he : cur.datas = []
          · simp [he]
          · exfalso
            apply hc
            refine ⟨by simpa using he, ?_⟩
            simpa using hlong) hacc
      refine ⟨?_, h2⟩
      rw [h1]
      simp

/-- Concatenating the buffers of batches whose buffers are the bytes of their
records gives the bytes of the concatenated records. -/
theorem flatten_buffers {α : Type} (encode : α → List UInt8) (l : List (Batch α))
    (h : ∀ b ∈ l, b.buffer = (b.datas.map (pointBytes encode)).flatten) :
    (l.map Batch.buffer).flatten = ((l.map Batch.datas).flatten.map (pointBytes encode)).flatten := by
  induction l with
  | nil => rfl
  | cons b bs ih =>
    have hb := h b (List.mem_cons_self b bs)
    have hbs := ih (fun x hx => h x (List.mem_cons_of_mem b hx))
    simp [hb, hbs, List.map_append, List.flatten_append]


/-- Sizes of a uniform batch. -/
theorem uniformBatch_length {α : Type} (encode : α → List UInt8) (d : α) (j : Nat) :
    (uniformBatch encode d j).datas.length = j ∧
      (uniformBatch encode d j).buffer.length = j * (pointBytes encode d).length := by
  induction j with
  | zero => simp [uniformBatch]
  | succ j ih =>
    obtain ⟨_, h2⟩ := ih
    simp only [uniformBatch] at h2 ⊢
    refine ⟨List.length_replicate _ _, ?_⟩
    rw [List.replicate_succ, List.flatten_cons, List.length_append, h2]
    ring

/-- A uniform batch taking one more copy of its record. -/
theorem uniformBatch_succ {α : Type} (encode : α → List UInt8) (d : α) (j : Nat) :
    (⟨(uniformBatch encode d j).datas ++ [d],
      (uniformBatch encode d j).buffer ++ pointBytes encode d⟩ : Batch α) =
      uniformBatch encode d (j + 1) := by
  simp [uniformBatch, List.replicate_succ', List.flatten_append]

/-- As long as the copies fit under the maximum, the loop of `unpack` just adds
them to the current uniform batch. -/
theorem unpackLoop_fill {α : Type} (encode : α → List UInt8) (M : Nat) (d : α) (m : Nat) :
    ∀ (j : Nat) (rest : List α) (acc : List (Batch α)),
      (j + m) * (pointBytes encode d).length ≤ M →
      unpackLoop encode M (List.replicate m d ++ rest) (uniformBatch encode d j) acc =
        unpackLoop encode M rest (uniformBatch encode d (j + m)) acc := by
  induction m with
  | zero => intro j rest acc _; rfl
  | succ m ih =>
    intro j rest acc h
    have hfit : ¬ (¬ (uniformBatch encode d j).datas.isEmpty = true ∧
        (uniformBatch encode d j).buffer.length + (pointBytes encode d).length > M) := by
      rintro ⟨_, hgt⟩
      rw [(uniformBatch_length encode d j).2] at hgt
      have : (j + 1) * (pointBytes encode d).length ≤ (j + (m + 1)) * (pointBytes encode d).length :=
        Nat.mul_le_mul_right _ (by omega)
      have h3 : (j + 1) * (pointBytes encode d).length =
          j * (pointBytes encode d).length + (pointBytes encode d).length := by ring
      omega
    rw [List.replicate_succ, List.cons_append, unpackLoop]
    rw [if_neg hfit, uniformBatch_succ]
    have hj : j + (m + 1) = j + 1 + m := by omega
    rw [hj] at h ⊢
    exact ih (j + 1) rest acc h

/-- When one more copy would exceed the maximum, the loop of `unpack` closes a
non-empty uniform batch and starts a new one with that copy. -/
theorem unpackLoop_close {α : Type} (encode : α → List UInt8) (M : Nat) (d : α) (j : Nat)
    (rest : List α) (acc : List (Batch α)) (hj : 1 ≤ j)
    (h : M < (j + 1) * (pointBytes encode d).length) :
    unpackLoop encode M (d :: rest) (uniformBatch encode d j) acc =
      unpackLoop encode M rest (uniformBatch encode d 1) (acc ++ [uniformBatch encode d j]) := by
  have hfull : ¬ (uniformBatch encode d j).datas.isEmpty = true ∧
      (uniformBatch encode d j).buffer.length + (pointBytes encode d).length > M := by
    constructor
    · have hl := (uniformBatch_length encode d j).1
      intro he
      rw [List.isEmpty_iff] at he
      rw [he] at hl
      simp at hl
      omega
    · rw [(uniformBatch_length encode d j).2]
      have h3 : (j + 1) * (pointBytes encode d).length =
          j * (pointBytes encode d).length + (pointBytes encode d).length := by ring
      omega
  rw [unpackLoop]
  rw [if_pos hfull]
  have h1 : (⟨[d], pointBytes encode d⟩ : Batch α) = uniformBatch encode d 1 := by
    simp [uniformBatch]
  rw [h1]

/-- Copies of one record, `k` of which fill a batch, `k + r` of them with
`1 ≤ r ≤ k` give a batch of `k` and a batch of `r`. -/
theorem unpack_uniform_two {α : Type} (encode : α → List UInt8) (M : Nat) (d : α) (k r : Nat)
    (hk : k * (pointBytes encode d).length ≤ M) (hk1 : M < (k + 1) * (pointBytes encode d).length)
    (hr1 : 1 ≤ r) (hr : r ≤ k) :
    unpack encode M (List.replicate (k + r) d) =
      [uniformBatch encode d k, uniformBatch encode d r] := by
  obtain ⟨r0, rfl⟩ : ∃ r0, r = r0 + 1 := ⟨r - 1, by omega⟩
  have h0 : (⟨[], []⟩ : Batch α) = uniformBatch encode d 0 := by simp [uniformBatch]
  have hle : (1 + r0) * (pointBytes encode d).length ≤ M :=
    le_trans (Nat.mul_le_mul_right _ (by omega)) hk
  have hne : ¬ (uniformBatch encode d (1 + r0)).datas.isEmpty = true := by
    have hl := (uniformBatch_length encode d (1 + r0)).1
    intro he
    rw [List.isEmpty_iff] at he
    rw [he] at hl
    simp at hl
    omega
  unfold unpack
  rw [h0, List.replicate_add, unpackLoop_fill encode M d k 0 _ _ (by simpa using hk),
    List.replicate_succ, Nat.zero_add,
    unpackLoop_close encode M d k _ _ (by omega) hk1]
  have h2 := unpackLoop_fill encode M d r0 1 [] ([] ++ [uniformBatch encode d k]) hle
  rw [List.append_nil] at h2
  rw [h2, unpackLoop, if_neg hne]
  have h3 : 1 + r0 = r0 + 1 := by omega
  rw [h3]
  rfl


/-- C6: for every record sequence and every maximum `M` (in particular every
`M > 0`), (1) the buffers of the batches of `unpack`, concatenated in order, are
the newline-terminated encodings of all records in input order, and the batches'
record lists concatenated are the input; (2) no batch is empty, in records or in
bytes; (3) every batch whose buffer is longer than `M` holds exactly one record.
With the 10-byte records of the test, `2*1024*103` records under 2 MiB give two
batches of 209715 and 1229 records, and three records under `M = 0` give three
10-byte batches. -/
theorem unpack_batches {α : Type} (encode : α → List UInt8) (M : Nat) (datas : List α) :
    (((unpack encode M datas).map Batch.buffer).flatten =
        (datas.map (fun d => encode d ++ [10])).flatten ∧
      ((unpack encode M datas).map Batch.datas).flatten = datas) ∧
    (∀ b ∈ unpack encode M datas, b.datas ≠ [] ∧ b.buffer ≠ []) ∧
    (∀ b ∈ unpack encode M datas, M < b.buffer.length → b.datas.length = 1) ∧
    (unpack testEncode (2 * 1024 * 1024) (List.replicate (2 * 1024 * 103) ())).map
        (fun b => (b.datas.length, b.buffer.length)) = [(209715, 2097150), (1229, 12290)] ∧
    (unpack testEncode 0 (List.replicate 3 ())).map
        (fun b => (b.datas.length, b.buffer.length)) = [(1, 10), (1, 10), (1, 10)] := by
  obtain ⟨hcat, hbuilt⟩ := unpackLoop_spec encode M datas ⟨[], []⟩ [] rfl
    (fun h => absurd h (by simp)) (by simp)
  have hcat2 : ((unpack encode M datas).map Batch.datas).flatten = datas := by
    simpa [unpack] using hcat
  refine ⟨⟨?_, hcat2⟩, ?_, ?_, ?_, ?_⟩
  · have hfb := flatten_buffers encode (unpack encode M datas) (fun b hb => (hbuilt b hb).1)
    rw [hfb, hcat2]
    rfl
  · intro b hb
    obtain ⟨h1, h2, _⟩ := hbuilt b hb
    refine ⟨h2, ?_⟩
    rw [h1]
    obtain ⟨d, ds, hd⟩ := List.exists_cons_of_ne_nil h2
    rw [hd]
    simp [pointBytes]
  · intro b hb
    exact (hbuilt b hb).2.2
  · have hlen : (pointBytes testEncode ()).length = 10 := rfl
    have h := unpack_uniform_two testEncode (2 * 1024 * 1024) () 209715 1229
      (by rw [hlen]; norm_num) (by rw [hlen]; norm_num) (by omega) (by omega)
    have hn : 2 * 1024 * 103 = 209715 + 1229 := by norm_num
    rw [hn, h]
    simp only [List.map_cons, List.map_nil, uniformBatch_length, hlen]
  · decide

/-- Witness for C6: three 10-byte records under a maximum of 5 bytes; each batch
is longer than the maximum and holds one record. -/
theorem unpack_batches_witness :
    (⟨[()], pointBytes testEncode ()⟩ : Batch Unit) ∈ unpack testEncode 5 [(), (), ()] ∧
      5 < (pointBytes testEncode ()).length ∧
      (⟨[()], pointBytes testEncode ()⟩ : Batch Unit).datas ≠ [] ∧
      (⟨[()], pointBytes testEncode ()⟩ : Batch Unit).datas.length = 1 :=
  ⟨by decide, by decide,
   ((unpack_batches testEncode 5 [(), (), ()]).2.1 ⟨[()], pointBytes testEncode ()⟩
      (by decide)).1,
   (unpack_batches testEncode 5 [(), (), ()]).2.2.1 ⟨[()], pointBytes testEncode ()⟩
      (by decide) (by decide)⟩

end sender

namespace reader

/-- Every world is quiet after itself. -/
theorem World.Quiet.refl (w : World) : w.Quiet w := ⟨rfl, [], by simp, rfl⟩

/-- Quiet stretches compose. -/
theorem World.Quiet.trans {w w1 w2 : World} (h1 : w.Quiet w1) (h2 : w1.Quiet w2) : w.Quiet w2 := by
  obtain ⟨c1, e1, t1, n1⟩ := h1
  obtain ⟨c2, e2, t2, n2⟩ := h2
  refine ⟨c2.trans c1, e1 ++ e2, ?_, ?_⟩
  · rw [t2, t1, List.append_assoc]
  · rw [List.count_append, n1, n2]

/-- Appending an event other than the not-exist retry sleep keeps a world quiet. -/
theorem World.Quiet.log (w : World) (e : Event) (he : e ≠ Event.sleepVanished) :
    w.Quiet { w with trace := w.trace ++ [e] } :=
  ⟨rfl, [e], rfl, List.count_eq_zero.2 (by simpa using he.symm)⟩

/-- A world that differs in scripts and checkpoint store only is quiet. -/
theorem World.Quiet.of_eq {w w2 : World} (hc : w2.copied = w.copied) (ht : w2.trace = w.trace) :
    w.Quiet w2 := ⟨hc, [], by simp [ht], rfl⟩

/-- The directory search of `nextFile` copies no byte and logs no event. -/
theorem searchDir_world (ops : PathOps) (sf : SeqFile) (w : World)
    (r : Option FileInfo × Option Err) (w' : World) (h : sf.searchDir ops w = some (r, w')) :
    w'.copied = w.copied ∧ w'.trace = w.trace := by
  unfold SeqFile.searchDir at h
  split at h
  · simp at h
  · simp only [Option.some.injEq, Prod.mk.injEq] at h
    obtain ⟨_, rfl⟩ := h
    exact ⟨rfl, rfl⟩
  · split at h <;>
    · simp only [Option.some.injEq, Prod.mk.injEq] at h
      obtain ⟨_, rfl⟩ := h
      exact ⟨rfl, rfl⟩

/-- `nextFile` copies no byte and logs no event. -/
theorem nextFile_world (ops : PathOps) (sf : SeqFile) (w : World)
    (r : Option FileInfo × Option Err) (w' : World) (h : sf.nextFile ops w = some (r, w')) :
    w'.copied = w.copied ∧ w'.trace = w.trace := by
  unfold SeqFile.nextFile at h
  split at h
  · simp at h
  · split at h
    · simp only [Option.some.injEq, Prod.mk.injEq] at h
      obtain ⟨_, rfl⟩ := h
      exact ⟨rfl, rfl⟩
    · have hs := searchDir_world ops sf _ r w' h
      exact hs
  · have hs := searchDir_world ops sf _ r w' h
    exact hs

/-- `newOpen` copies no byte and logs no event. -/
theorem newOpen_world (ops : PathOps) (sf : SeqFile) (w : World)
    (e : Option Err) (sf' : SeqFile) (w' : World) (h : sf.newOpen ops w = some (e, sf', w')) :
    w'.copied = w.copied ∧ w'.trace = w.trace := by
  unfold SeqFile.newOpen at h
  split at h
  · simp at h
  · rename_i fi err1 w1 hn
    have hw := nextFile_world ops sf w _ _ hn
    split at h
    · simp only [Option.some.injEq, Prod.mk.injEq] at h
      obtain ⟨_, _, rfl⟩ := h
      exact hw
    · split at h
      · simp only [Option.some.injEq, Prod.mk.injEq] at h
        obtain ⟨_, _, rfl⟩ := h
        exact hw
      · split at h
        · simp only [Option.some.injEq, Prod.mk.injEq] at h
          obtain ⟨_, _, rfl⟩ := h
          exact hw
        · dsimp only at h
          split at h
          · simp at h
          · simp only [Option.some.injEq, Prod.mk.injEq] at h
            obtain ⟨_, _, rfl⟩ := h
            exact hw
          · simp only [Option.some.injEq, Prod.mk.injEq] at h
            obtain ⟨_, _, rfl⟩ := h
            exact hw

/-- The first loop of `open` is quiet. -/
theorem openLoop_quiet (w : World) (l : List (Except Err File)) (r : Except Err File) (w' : World)
    (h : openLoop w l = some (r, w')) : w.Quiet w' := by
  induction l generalizing w with
  | nil => simp [openLoop] at h
  | cons x xs ih =>
    cases x with
    | error e =>
      simp only [openLoop] at h
      split at h
      · have hi := ih _ h
        exact (World.Quiet.log w Event.sleepOpen (by decide)).trans hi
      · simp only [Option.some.injEq, Prod.mk.injEq] at h
        obtain ⟨_, rfl⟩ := h
        exact World.Quiet.of_eq rfl rfl
    | ok f =>
      simp only [openLoop, Option.some.injEq, Prod.mk.injEq] at h
      obtain ⟨_, rfl⟩ := h
      exact World.Quiet.of_eq rfl rfl

/-- The second loop of `open` is quiet. -/
theorem doneFileLoop_quiet (d : String) (w : World) (l : List (Option Err)) (w' : World)
    (h : doneFileLoop d w l = some w') : w.Quiet w' := by
  induction l generalizing w with
  | nil => simp [doneFileLoop] at h
  | cons x xs ih =>
    cases x with
    | none =>
      simp only [doneFileLoop, AppendDoneFile, Option.some.injEq] at h
      subst h
      exact World.Quiet.of_eq rfl rfl
    | some e =>
      simp only [doneFileLoop, AppendDoneFile] at h
      have hi := ih _ h
      have hq : w.Quiet { w with doneFiles := w.doneFiles, appendErrs := xs,
                                 trace := w.trace ++ [Event.sleepDoneFile] } :=
        ⟨rfl, [Event.sleepDoneFile], rfl, by decide⟩
      exact hq.trans hi

/-- The switch part of `open` is quiet, whatever it returns. -/
theorem openSwitch_quiet (ops : PathOps) (sf : SeqFile) (w : World) (fi : FileInfo)
    (e : Option Err) (sf1 : SeqFile) (w1 : World) (h : sf.openSwitch ops w fi = some (e, sf1, w1)) :
    w.Quiet w1 := by
  unfold SeqFile.openSwitch at h
  split at h
  · simp at h
  · rename_i cerr w0 hc
    have hw0 : w.Quiet w0 := by
      split at hc
      · simp only [Option.some.injEq, Prod.mk.injEq] at hc
        obtain ⟨_, rfl⟩ := hc
        exact World.Quiet.refl w
      · split at hc
        · simp at hc
        · simp only [Option.some.injEq, Prod.mk.injEq] at hc
          obtain ⟨_, rfl⟩ := hc
          exact World.Quiet.of_eq rfl rfl
    split at h
    · simp only [Option.some.injEq, Prod.mk.injEq] at h
      obtain ⟨_, _, rfl⟩ := h
      exact hw0
    · dsimp only at h
      split at h
      · simp at h
      · rename_i e2 w2 hl
        simp only [Option.some.injEq, Prod.mk.injEq] at h
        obtain ⟨_, _, rfl⟩ := h
        exact hw0.trans (openLoop_quiet _ _ _ _ hl)
      · rename_i f w2 hl
        simp only [Option.some.injEq, Prod.mk.injEq] at h
        obtain ⟨_, _, rfl⟩ := h
        exact (hw0.trans (openLoop_quiet _ _ _ _ hl)).trans (World.Quiet.log w2 _ (by simp))

/-- `open` is quiet, whatever it returns. -/
theorem open_quiet (ops : PathOps) (sf : SeqFile) (w : World) (fi : Option FileInfo)
    (e : Option Err) (sf1 : SeqFile) (w1 : World) (h : sf.open ops w fi = some (e, sf1, w1)) :
    w.Quiet w1 := by
  unfold SeqFile.open at h
  split at h
  · simp only [Option.some.injEq, Prod.mk.injEq] at h
    obtain ⟨_, _, rfl⟩ := h
    exact World.Quiet.refl w
  · dsimp only at h
    split at h
    · simp at h
    · rename_i e2 sf2 w2 hs
      simp only [Option.some.injEq, Prod.mk.injEq] at h
      obtain ⟨_, _, rfl⟩ := h
      exact openSwitch_quiet ops sf w _ _ _ _ hs
    · rename_i sf2 w2 hs
      split at h
      · simp at h
      · rename_i w3 hd
        simp only [Option.some.injEq, Prod.mk.injEq] at h
        obtain ⟨_, _, rfl⟩ := h
        exact (openSwitch_quiet ops sf w _ _ _ _ hs).trans (doneFileLoop_quiet _ _ _ _ hd)


/-- A pass of the end-of-file branch of `Read` that goes round again copied no
byte, kept `n`, and raised the retry counter by the number of not-exist retry
sleeps it made (none after a switch), never above 3. -/
theorem onEOF_next (ops : PathOps) (sf : SeqFile) (w : World) (n : Nat) (err : Option Err)
    (retry : Nat) (sf1 : SeqFile) (w1 : World) (n1 : Nat) (err1 : Option Err) (retry1 : Nat)
    (h : sf.onEOF ops w n err retry = some (Step.next sf1 w1 n1 err1 retry1)) (hr : retry ≤ 3) :
    w1.copied = w.copied ∧ n1 = n ∧ retry1 ≤ 3 ∧
      ∃ evs, w1.trace = w.trace ++ evs ∧ retry1 = retry + evs.count Event.sleepVanished := by
  unfold SeqFile.onEOF at h
  split at h
  · simp at h
  · rename_i fi e1 w2 hn
    obtain ⟨hc, ht⟩ := nextFile_world ops sf w _ _ hn
    split at h
    · split at h
      · simp at h
      · rename_i hlt
        simp only [Option.some.injEq, Step.next.injEq] at h
        obtain ⟨_, rfl, rfl, _, rfl⟩ := h
        refine ⟨hc, rfl, by omega, [Event.sleepVanished], ?_, by simp⟩
        simp [ht]
    · split at h
      · simp at h
      · split at h
        · rename_i fi0
          split at h
          · simp at h
          · simp at h
          · rename_i sf2 w4 ho
            simp only [Option.some.injEq, Step.next.injEq] at h
            obtain ⟨_, rfl, rfl, _, rfl⟩ := h
            obtain ⟨hc4, evs, ht4, hz⟩ := open_quiet ops sf _ _ _ _ _ ho
            refine ⟨hc4.trans hc, rfl, hr, Event.logNextFile fi0.name :: evs, ?_, ?_⟩
            · rw [ht4]
              simp [ht]
            · rw [List.count_cons, hz]
              simp
        · simp at h

/-- A pass of the end-of-file branch of `Read` that returns through the give-up
`return n, io.EOF` copied no byte, made no sleep, returns the `n` it was given,
and found the retry counter at 3. -/
theorem onEOF_vanished (ops : PathOps) (sf : SeqFile) (w : World) (n : Nat) (err : Option Err)
    (retry : Nat) (r : ReadResult) (sf1 : SeqFile) (w1 : World)
    (h : sf.onEOF ops w n err retry = some (Step.done r sf1 w1)) (hx : r.exit = Exit.vanished)
    (hr : retry ≤ 3) :
    w1.copied = w.copied ∧ r.n = n ∧ retry = 3 ∧ r.err = some Err.eof ∧ w1.trace = w.trace := by
  unfold SeqFile.onEOF at h
  split at h
  · simp at h
  · rename_i fi e1 w2 hn
    obtain ⟨hc, ht⟩ := nextFile_world ops sf w _ _ hn
    split at h
    · split at h
      · rename_i hge
        simp only [Option.some.injEq, Step.done.injEq] at h
        obtain ⟨rfl, _, rfl⟩ := h
        exact ⟨hc, rfl, by omega, rfl, ht⟩
      · simp at h
    · split at h
      · simp only [Option.some.injEq, Step.done.injEq] at h
        obtain ⟨rfl, _, _⟩ := h
        simp at hx
      · split at h
        · split at h
          · simp at h
          · simp only [Option.some.injEq, Step.done.injEq] at h
            obtain ⟨rfl, _, _⟩ := h
            simp at hx
          · simp at h
        · simp only [Option.some.injEq, Step.done.injEq] at h
          obtain ⟨rfl, _, _⟩ := h
          simp at hx


/-- A pass of the body of `Read` from the file read on that goes round again:
`n` grew by the bytes copied, and the retry counter by the number of not-exist
retry sleeps made, never above 3. -/
theorem readFrom_next (ops : PathOps) (plen : Nat) (sf : SeqFile) (w : World) (n retry : Nat)
    (sf1 : SeqFile) (w1 : World) (n1 : Nat) (err1 : Option Err) (retry1 : Nat)
    (h : sf.readFrom ops plen w n retry = some (Step.next sf1 w1 n1 err1 retry1))
    (hr : retry ≤ 3) :
    w1.copied + n = w.copied + n1 ∧ retry1 ≤ 3 ∧
      ∃ evs, w1.trace = w.trace ++ evs ∧ retry1 = retry + evs.count Event.sleepVanished := by
  unfold SeqFile.readFrom at h
  split at h
  · simp at h
  · dsimp only at h
    split at h
    · simp only [Option.some.injEq, Step.next.injEq] at h
      obtain ⟨_, rfl, rfl, _, rfl⟩ := h
      exact ⟨by simp only []; omega, hr, [], by simp, by simp⟩
    · split at h
      · simp at h
      · obtain ⟨hc, hn, hr1, evs, ht, hk⟩ := onEOF_next ops _ _ _ _ _ _ _ _ _ _ h hr
        simp only [] at hc ht
        exact ⟨by omega, hr1, evs, ht, hk⟩

/-- A pass of the body of `Read` from the file read on that returns through the
give-up `return n, io.EOF`. -/
theorem readFrom_vanished (ops : PathOps) (plen : Nat) (sf : SeqFile) (w : World) (n retry : Nat)
    (r : ReadResult) (sf1 : SeqFile) (w1 : World)
    (h : sf.readFrom ops plen w n retry = some (Step.done r sf1 w1))
    (hx : r.exit = Exit.vanished) (hr : retry ≤ 3) :
    w1.copied + n = w.copied + r.n ∧ retry = 3 ∧ r.err = some Err.eof ∧ w1.trace = w.trace := by
  unfold SeqFile.readFrom at h
  split at h
  · simp at h
  · dsimp only at h
    split at h
    · simp at h
    · split at h
      · simp only [Option.some.injEq, Step.done.injEq] at h
        obtain ⟨rfl, _, _⟩ := h
        simp at hx
      · obtain ⟨hc, hn, hr3, he, ht⟩ := onEOF_vanished ops _ _ _ _ _ _ _ _ h hx hr
        simp only [] at hc ht
        exact ⟨by omega, hr3, he, ht⟩

/-- The same for the whole body of the loop of `Read`, going round again. -/
theorem readStep_next (ops : PathOps) (plen : Nat) (sf : SeqFile) (w : World) (n retry : Nat)
    (sf1 : SeqFile) (w1 : World) (n1 : Nat) (err1 : Option Err) (retry1 : Nat)
    (h : sf.readStep ops plen w n retry = some (Step.next sf1 w1 n1 err1 retry1))
    (hr : retry ≤ 3) :
    w1.copied + n = w.copied + n1 ∧ retry1 ≤ 3 ∧
      ∃ evs, w1.trace = w.trace ++ evs ∧ retry1 = retry + evs.count Event.sleepVanished := by
  unfold SeqFile.readStep at h
  split at h
  · split at h
    · simp at h
    · split at h
      · simp at h
      · rename_i e sf2 w2 hn
        obtain ⟨hc, ht⟩ := newOpen_world ops sf w _ _ _ hn
        simp only [Option.some.injEq, Step.next.injEq] at h
        obtain ⟨_, rfl, rfl, _, rfl⟩ := h
        refine ⟨by simp only []; omega, hr, [Event.sleepNewOpen], by simp [ht], by simp⟩
      · rename_i sf2 w2 hn
        obtain ⟨hc, ht⟩ := newOpen_world ops sf w _ _ _ hn
        obtain ⟨h1, h2, evs, h3, h4⟩ := readFrom_next ops plen _ _ _ _ _ _ _ _ _ h hr
        exact ⟨by omega, h2, evs, by rw [h3, ht], h4⟩
  · exact readFrom_next ops plen _ _ _ _ _ _ _ _ _ h hr

/-- The same for the whole body of the loop of `Read`, giving up. -/
theorem readStep_vanished (ops : PathOps) (plen : Nat) (sf : SeqFile) (w : World) (n retry : Nat)
    (r : ReadResult) (sf1 : SeqFile) (w1 : World)
    (h : sf.readStep ops plen w n retry = some (Step.done r sf1 w1))
    (hx : r.exit = Exit.vanished) (hr : retry ≤ 3) :
    w1.copied + n = w.copied + r.n ∧ retry = 3 ∧ r.err = some Err.eof ∧ w1.trace = w.trace := by
  unfold SeqFile.readStep at h
  split at h
  · split at h
    · simp only [Option.some.injEq, Step.done.injEq] at h
      obtain ⟨rfl, _, _⟩ := h
      simp at hx
    · split at h
      · simp at h
      · simp at h
      · rename_i sf2 w2 hn
        obtain ⟨hc, ht⟩ := newOpen_world ops sf w _ _ _ hn
        obtain ⟨h1, h2, h3, h4⟩ := readFrom_vanished ops plen _ _ _ _ _ _ _ h hx hr
        exact ⟨by omega, h2, h3, h4.trans ht⟩
  · exact readFrom_vanished ops plen _ _ _ _ _ _ _ h hx hr

/-- From any pass on, a run of the loop of `Read` that ends in the give-up has
raised the retry counter to 3 by its not-exist retry sleeps, and returns the `n`
it had plus the bytes copied since. -/
theorem readLoop_vanished (ops : PathOps) (plen : Nat) (fuel : Nat) :
    ∀ (sf : SeqFile) (w : World) (n : Nat) (err : Option Err) (retry : Nat) (r : ReadResult)
      (sf' : SeqFile) (w' : World),
      readLoop ops plen fuel sf w n err retry = some (r, sf', w') → r.exit = Exit.vanished →
      retry ≤ 3 →
      w'.copied + n = w.copied + r.n ∧ r.err = some Err.eof ∧
        ∃ evs, w'.trace = w.trace ++ evs ∧ retry + evs.count Event.sleepVanished = 3 := by
  induction fuel with
  | zero => intro sf w n err retry r sf' w' h; simp [readLoop] at h
  | succ fuel ih =>
    intro sf w n err retry r sf' w' h hx hr
    unfold readLoop at h
    split at h
    · simp only [Option.some.injEq, Prod.mk.injEq] at h
      obtain ⟨rfl, _, _⟩ := h
      simp at hx
    · split at h
      · simp at h
      · rename_i r1 sf1 w1 hs
        simp only [Option.some.injEq, Prod.mk.injEq] at h
        obtain ⟨rfl, rfl, rfl⟩ := h
        obtain ⟨h1, h2, h3, h4⟩ := readStep_vanished ops plen sf w n retry _ _ _ hs hx hr
        exact ⟨h1, h3, [], by simp [h4], by simp [h2]⟩
      · rename_i sf1 w1 n1 err1 retry1 hs
        obtain ⟨h1, h2, evs1, h3, h4⟩ := readStep_next ops plen sf w n retry _ _ _ _ _ hs hr
        obtain ⟨g1, g2, evs2, g3, g4⟩ := ih sf1 w1 n1 err1 retry1 r sf' w' h hx h2
        refine ⟨by omega, g2, evs1 ++ evs2, ?_, ?_⟩
        · rw [g3, h3, List.append_assoc]
        · rw [List.count_append]
          omega


/-- C7 (as stated, refuted): after three not-exist reports, each retried, `Read`
switches to `b.log`, and the very next not-exist report, the first since the
switch, makes it return `io.EOF`: the switch did not restart the count. -/
theorem Read_gives_up_after_switch_counterexample :
    cursorKnown.Read slashPath vanishWorld 16 10 =
      some (⟨0, some Err.eof, Exit.vanished⟩,
        { cursorKnown with currFile := "/logs/b.log", f := some ⟨4⟩, offset := 0, inode := 8 },
        { quietWorld with
          doneFiles := ["/logs/a.log"]
          trace := [Event.sleepVanished, Event.sleepVanished, Event.sleepVanished,
            Event.logNextFile "b.log", Event.logStartTail "b.log"] }) := by
  decide

/-- C12 (the code at the failing input): a `Read` into a 16-byte buffer copies 5
bytes and advances the offset from 100 to 105, then meets end of file with
`nextFile` returning `nil, nil`, and returns `0, io.EOF`: the returned `n` is 0
although 5 bytes were copied into the buffer and consumed from the file. -/
theorem Read_idle_drops_count :
    ({ cursorKnown with offset := 105 } : SeqFile).nextFile slashPath
        { idleWorld with reads := [], copied := 5 } =
      some ((none, none), { quietWorld with copied := 5 }) ∧
    cursorKnown.Read slashPath idleWorld 16 10 =
      some (⟨0, some Err.eof, Exit.idle⟩, { cursorKnown with offset := 105 },
        { quietWorld with copied := 5, trace := [Event.sleepIdle] }) ∧
    (5 : Int) = 105 - cursorKnown.offset ∧ ((0 : Nat) ≠ 5) := by
  decide


/-- A `newOpen` that returns nil leaves an open handle. -/
theorem newOpen_ok_handle (ops : PathOps) (sf : SeqFile) (w : World) (sf' : SeqFile) (w' : World)
    (h : sf.newOpen ops w = some (none, sf', w')) : sf'.f ≠ none := by
  unfold SeqFile.newOpen at h
  split at h
  · simp at h
  · split at h
    · simp at h
    · split at h
      · simp at h
      · split at h
        · simp at h
        · dsimp only at h
          split at h
          · simp at h
          · simp at h
          · simp only [Option.some.injEq, Prod.mk.injEq, true_and] at h
            obtain ⟨rfl, _⟩ := h
            simp

/-- A `newOpen` that returns an error leaves the handle as it was. -/
theorem newOpen_err_handle (ops : PathOps) (sf : SeqFile) (w : World) (e : Err) (sf' : SeqFile)
    (w' : World) (h : sf.newOpen ops w = some (some e, sf', w')) : sf'.f = sf.f := by
  unfold SeqFile.newOpen at h
  split at h
  · simp at h
  · split at h
    · simp only [Option.some.injEq, Prod.mk.injEq] at h
      obtain ⟨_, rfl, _⟩ := h
      rfl
    · split at h
      · simp only [Option.some.injEq, Prod.mk.injEq] at h
        obtain ⟨_, rfl, _⟩ := h
        rfl
      · split at h
        · simp only [Option.some.injEq, Prod.mk.injEq] at h
          obtain ⟨_, rfl, _⟩ := h
          rfl
        · dsimp only at h
          split at h
          · simp at h
          · simp only [Option.some.injEq, Prod.mk.injEq] at h
            obtain ⟨_, rfl, _⟩ := h
            rfl
          · simp at h

/-- An `open` on a non-nil candidate that returns nil leaves an open handle. -/
theorem open_ok_handle (ops : PathOps) (sf : SeqFile) (w : World) (fi : FileInfo) (sf' : SeqFile)
    (w' : World) (h : sf.open ops w (some fi) = some (none, sf', w')) : sf'.f ≠ none := by
  obtain ⟨wMid, hs, _⟩ := (open_ok_iff ops sf w fi sf' w').1 h
  unfold SeqFile.openSwitch at hs
  split at hs
  · simp at hs
  · split at hs
    · rename_i hne
      simp only [Option.some.injEq, Prod.mk.injEq] at hs
      exact absurd hs.1 hne.1
    · dsimp only at hs
      split at hs
      · simp at hs
      · simp at hs
      · simp only [Option.some.injEq, Prod.mk.injEq, true_and] at hs
        obtain ⟨rfl, _⟩ := hs
        simp

/-- A pass of the end-of-file branch that goes round again has not lost the handle. -/
theorem onEOF_next_handle (ops : PathOps) (sf : SeqFile) (w : World) (n : Nat) (err : Option Err)
    (retry : Nat) (sf1 : SeqFile) (w1 : World) (n1 : Nat) (err1 : Option Err) (retry1 : Nat)
    (h : sf.onEOF ops w n err retry = some (Step.next sf1 w1 n1 err1 retry1))
    (hf : sf.f ≠ none) : sf1.f ≠ none := by
  unfold SeqFile.onEOF at h
  split at h
  · simp at h
  · split at h
    · split at h
      · simp at h
      · simp only [Option.some.injEq, Step.next.injEq] at h
        obtain ⟨rfl, _⟩ := h
        exact hf
    · split at h
      · simp at h
      · split at h
        · split at h
          · simp at h
          · simp at h
          · rename_i sf2 w4 ho
            simp only [Option.some.injEq, Step.next.injEq] at h
            obtain ⟨rfl, _⟩ := h
            exact open_ok_handle ops sf _ _ _ _ ho
        · simp at h

/-- A pass of the end-of-file branch that returns elsewhere than through
`return 0, io.EOF` copied no byte and returns the `n` it was given. -/
theorem onEOF_done_counts (ops : PathOps) (sf : SeqFile) (w : World) (n : Nat) (err : Option Err)
    (retry : Nat) (r : ReadResult) (sf1 : SeqFile) (w1 : World)
    (h : sf.onEOF ops w n err retry = some (Step.done r sf1 w1)) (hx : r.exit ≠ Exit.idle) :
    w1.copied = w.copied ∧ r.n = n := by
  unfold SeqFile.onEOF at h
  split at h
  · simp at h
  · rename_i fi e1 w2 hn
    obtain ⟨hc, _⟩ := nextFile_world ops sf w _ _ hn
    split at h
    · split at h
      · simp only [Option.some.injEq, Step.done.injEq] at h
        obtain ⟨rfl, _, rfl⟩ := h
        exact ⟨hc, rfl⟩
      · simp at h
    · split at h
      · simp only [Option.some.injEq, Step.done.injEq] at h
        obtain ⟨rfl, _, rfl⟩ := h
        exact ⟨hc, rfl⟩
      · split at h
        · split at h
          · simp at h
          · rename_i e2 sf2 w4 ho
            simp only [Option.some.injEq, Step.done.injEq] at h
            obtain ⟨rfl, _, rfl⟩ := h
            obtain ⟨hc4, _⟩ := open_quiet ops sf _ _ _ _ _ ho
            exact ⟨hc4.trans hc, rfl⟩
          · simp at h
        · simp only [Option.some.injEq, Step.done.injEq] at h
          obtain ⟨rfl, _, _⟩ := h
          simp at hx

/-- A pass of the end-of-file branch that returns through `return 0, io.EOF`
returns 0 and copied no byte. -/
theorem onEOF_idle (ops : PathOps) (sf : SeqFile) (w : World) (n : Nat) (err : Option Err)
    (retry : Nat) (r : ReadResult) (sf1 : SeqFile) (w1 : World)
    (h : sf.onEOF ops w n err retry = some (Step.done r sf1 w1)) (hx : r.exit = Exit.idle) :
    w1.copied = w.copied ∧ r.n = 0 := by
  unfold SeqFile.onEOF at h
  split at h
  · simp at h
  · rename_i fi e1 w2 hn
    obtain ⟨hc, _⟩ := nextFile_world ops sf w _ _ hn
    split at h
    · split at h
      · simp only [Option.some.injEq, Step.done.injEq] at h
        obtain ⟨rfl, _, _⟩ := h
        simp at hx
      · simp at h
    · split at h
      · simp only [Option.some.injEq, Step.done.injEq] at h
        obtain ⟨rfl, _, _⟩ := h
        simp at hx
      · split at h
        · split at h
          · simp at h
          · simp only [Option.some.injEq, Step.done.injEq] at h
            obtain ⟨rfl, _, _⟩ := h
            simp at hx
          · simp at h
        · simp only [Option.some.injEq, Step.done.injEq] at h
          obtain ⟨rfl, _, rfl⟩ := h
          exact ⟨hc, rfl⟩


/-- A pass from the file read on that goes round again has not lost the handle. -/
theorem readFrom_next_handle (ops : PathOps) (plen : Nat) (sf : SeqFile) (w : World)
    (n retry : Nat) (sf1 : SeqFile) (w1 : World) (n1 : Nat) (err1 : Option Err) (retry1 : Nat)
    (h : sf.readFrom ops plen w n retry = some (Step.next sf1 w1 n1 err1 retry1))
    (hf : sf.f ≠ none) : sf1.f ≠ none := by
  unfold SeqFile.readFrom at h
  split at h
  · simp at h
  · dsimp only at h
    split at h
    · simp only [Option.some.injEq, Step.next.injEq] at h
      obtain ⟨rfl, _⟩ := h
      exact hf
    · split at h
      · simp at h
      · exact onEOF_next_handle ops _ _ _ _ _ _ _ _ _ _ h hf

/-- A pass from the file read on that returns elsewhere than through
`return 0, io.EOF` returns the `n` it had plus the bytes it copied. -/
theorem readFrom_done_counts (ops : PathOps) (plen : Nat) (sf : SeqFile) (w : World)
    (n retry : Nat) (r : ReadResult) (sf1 : SeqFile) (w1 : World)
    (h : sf.readFrom ops plen w n retry = some (Step.done r sf1 w1)) (hx : r.exit ≠ Exit.idle) :
    w1.copied + n = w.copied + r.n := by
  unfold SeqFile.readFrom at h
  split at h
  · simp at h
  · dsimp only at h
    split at h
    · simp at h
    · split at h
      · simp only [Option.some.injEq, Step.done.injEq] at h
        obtain ⟨rfl, _, rfl⟩ := h
        simp only []
        omega
      · obtain ⟨hc, hn⟩ := onEOF_done_counts ops _ _ _ _ _ _ _ _ h hx
        simp only [] at hc
        omega

/-- A pass from the file read on that returns through `return 0, io.EOF` returns
0, whatever `n` was and whatever it copied. -/
theorem readFrom_idle (ops : PathOps) (plen : Nat) (sf : SeqFile) (w : World)
    (n retry : Nat) (r : ReadResult) (sf1 : SeqFile) (w1 : World)
    (h : sf.readFrom ops plen w n retry = some (Step.done r sf1 w1)) (hx : r.exit = Exit.idle) :
    r.n = 0 := by
  unfold SeqFile.readFrom at h
  split at h
  · simp at h
  · dsimp only at h
    split at h
    · simp at h
    · split at h
      · simp only [Option.some.injEq, Step.done.injEq] at h
        obtain ⟨rfl, _, _⟩ := h
        simp at hx
      · exact (onEOF_idle ops _ _ _ _ _ _ _ _ h hx).2

/-- A pass of the loop body that goes round again without a handle had none
before and left `n` as it was. -/
theorem readStep_next_handle (ops : PathOps) (plen : Nat) (sf : SeqFile) (w : World)
    (n retry : Nat) (sf1 : SeqFile) (w1 : World) (n1 : Nat) (err1 : Option Err) (retry1 : Nat)
    (h : sf.readStep ops plen w n retry = some (Step.next sf1 w1 n1 err1 retry1))
    (hf : sf1.f = none) : sf.f = none ∧ n1 = n := by
  unfold SeqFile.readStep at h
  split at h
  · rename_i hnone
    split at h
    · simp at h
    · split at h
      · simp at h
      · simp only [Option.some.injEq, Step.next.injEq] at h
        obtain ⟨_, _, rfl, _⟩ := h
        exact ⟨hnone, rfl⟩
      · rename_i sf2 w2 hn
        exact absurd hf (readFrom_next_handle ops plen _ _ _ _ _ _ _ _ _ h
          (newOpen_ok_handle ops sf w _ _ hn))
  · rename_i f0 hsome
    exact absurd hf (readFrom_next_handle ops plen _ _ _ _ _ _ _ _ _ h (by simp [hsome]))

/-- A pass of the loop body that returns elsewhere than through `return 0, io.EOF`
returns the `n` it had plus the bytes it copied, `n` being 0 while there is no
handle. -/
theorem readStep_done_counts (ops : PathOps) (plen : Nat) (sf : SeqFile) (w : World)
    (n retry : Nat) (r : ReadResult) (sf1 : SeqFile) (w1 : World)
    (h : sf.readStep ops plen w n retry = some (Step.done r sf1 w1)) (hx : r.exit ≠ Exit.idle)
    (hn0 : sf.f = none → n = 0) : w1.copied + n = w.copied + r.n := by
  unfold SeqFile.readStep at h
  split at h
  · rename_i hnone
    split at h
    · simp only [Option.some.injEq, Step.done.injEq] at h
      obtain ⟨rfl, _, rfl⟩ := h
      simp only []
      have := hn0 hnone
      omega
    · split at h
      · simp at h
      · simp at h
      · rename_i sf2 w2 hn
        obtain ⟨hc, _⟩ := newOpen_world ops sf w _ _ _ hn
        have h1 := readFrom_done_counts ops plen _ _ _ _ _ _ _ h hx
        omega
  · exact readFrom_done_counts ops plen _ _ _ _ _ _ _ h hx

/-- A pass of the loop body that returns through `return 0, io.EOF` returns 0. -/
theorem readStep_idle (ops : PathOps) (plen : Nat) (sf : SeqFile) (w : World)
    (n retry : Nat) (r : ReadResult) (sf1 : SeqFile) (w1 : World)
    (h : sf.readStep ops plen w n retry = some (Step.done r sf1 w1)) (hx : r.exit = Exit.idle) :
    r.n = 0 := by
  unfold SeqFile.readStep at h
  split at h
  · split at h
    · simp only [Option.some.injEq, Step.done.injEq] at h
      obtain ⟨rfl, _, _⟩ := h
      rfl
    · split at h
      · simp at h
      · simp at h
      · exact readFrom_idle ops plen _ _ _ _ _ _ _ h hx
  · exact readFrom_idle ops plen _ _ _ _ _ _ _ h hx

/-- From any pass on, a run of the loop of `Read` that returns elsewhere than
through `return 0, io.EOF` returns the `n` it had plus the bytes copied since; one
that returns through `return 0, io.EOF` returns 0. -/
theorem readLoop_counts (ops : PathOps) (plen : Nat) (fuel : Nat) :
    ∀ (sf : SeqFile) (w : World) (n : Nat) (err : Option Err) (retry : Nat) (r : ReadResult)
      (sf' : SeqFile) (w' : World),
      readLoop ops plen fuel sf w n err retry = some (r, sf', w') → retry ≤ 3 →
      (sf.f = none → n = 0) →
      (r.exit ≠ Exit.idle → w'.copied + n = w.copied + r.n) ∧ (r.exit = Exit.idle → r.n = 0) := by
  induction fuel with
  | zero => intro sf w n err retry r sf' w' h; simp [readLoop] at h
  | succ fuel ih =>
    intro sf w n err retry r sf' w' h hr hn0
    unfold readLoop at h
    split at h
    · simp only [Option.some.injEq, Prod.mk.injEq] at h
      obtain ⟨rfl, _, rfl⟩ := h
      exact ⟨fun _ => rfl, fun hx => by simp at hx⟩
    · split at h
      · simp at h
      · rename_i r1 sf1 w1 hs
        simp only [Option.some.injEq, Prod.mk.injEq] at h
        obtain ⟨rfl, rfl, rfl⟩ := h
        exact ⟨fun hx => readStep_done_counts ops plen sf w n retry _ _ _ hs hx hn0,
          fun hx => readStep_idle ops plen sf w n retry _ _ _ hs hx⟩
      · rename_i sf1 w1 n1 err1 retry1 hs
        obtain ⟨h1, h2, _⟩ := readStep_next ops plen sf w n retry _ _ _ _ _ hs hr
        have hn1 : sf1.f = none → n1 = 0 := by
          intro hf
          obtain ⟨g1, g2⟩ := readStep_next_handle ops plen sf w n retry _ _ _ _ _ hs hf
          rw [g2]
          exact hn0 g1
        obtain ⟨g1, g2⟩ := ih sf1 w1 n1 err1 retry1 r sf' w' h h2 hn1
        exact ⟨fun hx => by have := g1 hx; omega, g2⟩

/-- Every `Read` that returns elsewhere than through `return 0, io.EOF` returns as
`n` the number of bytes the call copied into the buffer; a `Read` that returns
through `return 0, io.EOF` returns 0 whatever it copied. -/
theorem Read_counts_unless_idle (ops : PathOps) (sf : SeqFile) (w : World) (plen fuel : Nat)
    (r : ReadResult) (sf' : SeqFile) (w' : World)
    (h : sf.Read ops w plen fuel = some (r, sf', w')) :
    (r.exit ≠ Exit.idle → w'.copied = w.copied + r.n) ∧ (r.exit = Exit.idle → r.n = 0) := by
  obtain ⟨h1, h2⟩ := readLoop_counts ops plen fuel sf w 0 none 0 r sf' w' h (by omega)
    (fun _ => rfl)
  exact ⟨fun hx => by have := h1 hx; omega, h2⟩

end reader

namespace sender

/-- Splitting at commas always gives at least one group. -/
theorem splitComma_ne_nil (cs : List Char) : splitComma cs ≠ [] := by
  cases cs with
  | nil => simp [splitComma]
  | cons c cs =>
    unfold splitComma
    split
    · simp
    · split <;> simp

/-- Putting a character in front of the first group puts it in front of the
groups joined by commas. -/
theorem intercalate_cons_head (c : Char) (g : List Char) (gs : List (List Char)) :
    List.intercalate [comma] ((c :: g) :: gs) = c :: List.intercalate [comma] (g :: gs) := by
  cases gs <;> simp [List.intercalate, List.intersperse]

/-- The groups joined by commas are the text that was split. -/
theorem splitComma_intercalate (cs : List Char) :
    List.intercalate [comma] (splitComma cs) = cs := by
  induction cs with
  | nil => simp [splitComma, List.intercalate, List.intersperse]
  | cons c cs ih =>
    unfold splitComma
    split
    · rename_i hc
      obtain ⟨g, gs, hg⟩ := List.exists_cons_of_ne_nil (splitComma_ne_nil cs)
      rw [hg] at ih ⊢
      rw [← ih, hc]
      simp [List.intercalate, List.intersperse]
    · split
      · rename_i g gs hg
        rw [hg] at ih
        rw [intercalate_cons_head, ih]
      · rename_i hg
        exact absurd hg (splitComma_ne_nil cs)

/-- No group holds a comma. -/
theorem splitComma_no_comma (cs : List Char) : ∀ g ∈ splitComma cs, comma ∉ g := by
  induction cs with
  | nil => simp [splitComma]
  | cons c cs ih =>
    unfold splitComma
    split
    · intro g hg
      rcases List.mem_cons.1 hg with rfl | hg
      · simp
      · exact ih g hg
    · rename_i hc
      split
      · rename_i g0 gs hg0
        rw [hg0] at ih
        intro g hg
        rcases List.mem_cons.1 hg with rfl | hg
        · intro hmem
          rcases List.mem_cons.1 hmem with h | h
          · exact hc h.symm
          · exact ih g0 (List.mem_cons_self _ _) h
        · exact ih g (List.mem_cons_of_mem _ hg)
      · intro g hg
        simp only [List.mem_singleton] at hg
        subst hg
        intro hmem
        simp only [List.mem_singleton] at hmem
        exact hc hmem.symm

/-- Every token is non-empty and free of whitespace. -/
theorem fields_tokens (g : List Char) :
    ∀ t ∈ fields g, t ≠ [] ∧ ∀ c ∈ t, isSpace c = false := by
  induction g with
  | nil => simp [fields]
  | cons c cs ih =>
    unfold fields
    split
    · exact ih
    · rename_i hc
      have hc2 : isSpace c = false := by simpa using hc
      split
      · intro t ht
        simp only [List.mem_singleton] at ht
        subst ht
        exact ⟨by simp, by simpa using hc2⟩
      · rename_i d ds
        split
        · intro t ht
          rcases List.mem_cons.1 ht with rfl | ht
          · exact ⟨by simp, by simpa using hc2⟩
          · exact ih t ht
        · split
          · rename_i t0 ts ht0
            rw [ht0] at ih
            intro t ht
            rcases List.mem_cons.1 ht with rfl | ht
            · refine ⟨by simp, ?_⟩
              intro x hx
              rcases List.mem_cons.1 hx with rfl | hx
              · exact hc2
              · exact (ih t0 (List.mem_cons_self _ _)).2 x hx
            · exact ih t (List.mem_cons_of_mem _ ht)
          · intro t ht
            simp only [List.mem_singleton] at ht
            subst ht
            exact ⟨by simp, by simpa using hc2⟩

/-- The tokens of a group, put together, are the group without its whitespace. -/
theorem fields_flatten (g : List Char) :
    (fields g).flatten = g.filter (fun c => !isSpace c) := by
  induction g with
  | nil => simp [fields]
  | cons c cs ih =>
    unfold fields
    split
    · rename_i hc
      rw [ih]
      simp [hc]
    · rename_i hc
      have hc2 : isSpace c = false := by simpa using hc
      split
      · simp [hc2]
      · rename_i d ds
        split
        · rw [List.flatten_cons, ih]
          simp [hc2]
        · split
          · rename_i t0 ts ht0
            rw [ht0] at ih
            rw [List.filter_cons_of_pos (by simp [hc2]), ← ih]
            simp
          · rename_i ht0
            rw [ht0] at ih
            rw [List.filter_cons_of_pos (by simp [hc2]), ← ih]
            simp


/-- Leading whitespace is skipped. -/
theorem fields_cons_space (c : Char) (cs : List Char) (h : isSpace c = true) :
    fields (c :: cs) = fields cs := by
  conv_lhs => unfold fields
  simp only [h, if_true]

/-- A character that is not whitespace, followed by whitespace, is a token. -/
theorem fields_cons_then_space (c d : Char) (ds : List Char) (hc : isSpace c = false)
    (hd : isSpace d = true) : fields (c :: d :: ds) = [c] :: fields (d :: ds) := by
  conv_lhs => unfold fields
  simp only [hc, hd, if_true, Bool.false_eq_true, if_false]

/-- A character that is not whitespace, followed by another, joins its token. -/
theorem fields_cons_then_token (c d : Char) (ds t : List Char) (ts : List (List Char))
    (hc : isSpace c = false) (hd : isSpace d = false) (ht : fields (d :: ds) = t :: ts) :
    fields (c :: d :: ds) = (c :: t) :: ts := by
  conv_lhs => unfold fields
  simp only [hc, hd, Bool.false_eq_true, if_false, ht]

/-- A group that starts with a character that is not whitespace has a token. -/
theorem fields_ne_nil (c : Char) (cs : List Char) (hc : isSpace c = false) :
    fields (c :: cs) ≠ [] := by
  unfold fields
  rw [if_neg (by simp [hc])]
  split
  · simp
  · split
    · simp
    · split <;> simp

/-- A non-empty run of characters none of which is whitespace is one token. -/
theorem fields_run (g : List Char) (hg : g ≠ []) (hns : ∀ c ∈ g, isSpace c = false) :
    fields g = [g] := by
  induction g with
  | nil => exact absurd rfl hg
  | cons c cs ih =>
    have hc : isSpace c = false := hns c (List.mem_cons_self _ _)
    cases cs with
    | nil =>
      conv_lhs => unfold fields
      simp only [hc, Bool.false_eq_true, if_false]
    | cons d ds =>
      have hd : isSpace d = false := hns d (List.mem_cons_of_mem _ (List.mem_cons_self _ _))
      have ih2 := ih (by simp) (fun x hx => hns x (List.mem_cons_of_mem _ hx))
      exact fields_cons_then_token c d ds _ _ hc hd ih2

/-- A whitespace character ends the tokens before it: the tokens of a group are
those of what precedes the whitespace followed by those of what follows it. -/
theorem fields_append_space (g1 : List Char) (s : Char) (g2 : List Char) (hs : isSpace s = true) :
    fields (g1 ++ s :: g2) = fields g1 ++ fields g2 := by
  induction g1 with
  | nil =>
    rw [List.nil_append, fields_cons_space s g2 hs]
    simp [fields]
  | cons c cs ih =>
    by_cases hc : isSpace c = true
    · rw [List.cons_append, fields_cons_space c _ hc, fields_cons_space c _ hc, ih]
    · have hc2 : isSpace c = false := by simpa using hc
      cases cs with
      | nil =>
        rw [List.cons_append, List.nil_append, fields_cons_then_space c s g2 hc2 hs,
          fields_cons_space s g2 hs]
        have h1 : fields [c] = [[c]] := fields_run [c] (by simp) (by simpa using hc2)
        rw [h1]
        rfl
      | cons d ds =>
        rw [List.cons_append] at ih
        by_cases hd : isSpace d = true
        · rw [List.cons_append, List.cons_append, fields_cons_then_space c d _ hc2 hd,
            ih, fields_cons_then_space c d ds hc2 hd]
          rfl
        · have hd2 : isSpace d = false := by simpa using hd
          obtain ⟨t, ts, ht⟩ := List.exists_cons_of_ne_nil (fields_ne_nil d ds hd2)
          rw [ht] at ih
          rw [List.cons_append, List.cons_append,
            fields_cons_then_token c d _ t (ts ++ fields g2) hc2 hd2 ih,
            fields_cons_then_token c d ds t ts hc2 hd2 ht]
          rfl


/-- A text without a comma is a single group. -/
theorem splitComma_run (cs : List Char) (h : comma ∉ cs) : splitComma cs = [cs] := by
  induction cs with
  | nil => rfl
  | cons c cs ih =>
    have hc : ¬ c = comma := fun he => h (he ▸ List.mem_cons_self _ _)
    have ih2 := ih (fun hm => h (List.mem_cons_of_mem _ hm))
    conv_lhs => unfold splitComma
    simp only [hc, if_false, ih2]

/-- Reading a map after an assignment. -/
theorem mapGet_mapSet (m : List (String × String)) (k v k2 : String) :
    mapGet (mapSet m k v) k2 = if k = k2 then some v else mapGet m k2 := by
  induction m with
  | nil => simp [mapSet, mapGet]
  | cons e rest ih =>
    obtain ⟨k0, v0⟩ := e
    by_cases h0 : k0 = k
    · subst h0
      by_cases h2 : k0 = k2 <;> simp [mapSet, mapGet, h2]
    · by_cases h2 : k0 = k2
      · subst h2
        have hne : ¬ k = k0 := fun he => h0 he.symm
        simp [mapSet, mapGet, h0, hne]
      · simp [mapSet, mapGet, h0, h2, ih]

/-- The keys after an assignment are the keys before and the assigned key. -/
theorem mem_keys_mapSet (m : List (String × String)) (k v x : String) :
    x ∈ (mapSet m k v).map Prod.fst ↔ x ∈ m.map Prod.fst ∨ x = k := by
  induction m with
  | nil => simp [mapSet]
  | cons e rest ih =>
    obtain ⟨k0, v0⟩ := e
    by_cases h0 : k0 = k
    · subst h0
      simp [mapSet]
      tauto
    · simp only [mapSet, h0, if_false, List.map_cons, List.mem_cons, ih]
      tauto

/-- An assignment keeps the keys of a map distinct. -/
theorem nodup_keys_mapSet (m : List (String × String)) (k v : String)
    (h : (m.map Prod.fst).Nodup) : ((mapSet m k v).map Prod.fst).Nodup := by
  induction m with
  | nil => simp [mapSet]
  | cons e rest ih =>
    obtain ⟨k0, v0⟩ := e
    simp only [List.map_cons, List.nodup_cons] at h
    by_cases h0 : k0 = k
    · subst h0
      simpa [mapSet] using h
    · simp only [mapSet, h0, if_false, List.map_cons, List.nodup_cons]
      refine ⟨?_, ih h.2⟩
      intro hm
      rcases (mem_keys_mapSet rest k v k0).1 hm with hm | hm
      · exact h.1 hm
      · exact h0 hm

/-- Assigning a key that is not in the map adds the entry at the end. -/
theorem mapSet_of_not_mem (m : List (String × String)) (k v : String)
    (h : k ∉ m.map Prod.fst) : mapSet m k v = m ++ [(k, v)] := by
  induction m with
  | nil => rfl
  | cons e rest ih =>
    obtain ⟨k0, v0⟩ := e
    simp only [List.map_cons, List.mem_cons, not_or] at h
    have h0 : ¬ k0 = k := fun he => h.1 he.symm
    simp [mapSet, h0, ih h.2]

/-- Every entry of a map after an assignment was there before or is the assigned
one. -/
theorem mem_mapSet (m : List (String × String)) (k v : String) (e : String × String)
    (h : e ∈ mapSet m k v) : e ∈ m ∨ e = (k, v) := by
  induction m with
  | nil => simpa [mapSet] using h
  | cons e0 rest ih =>
    obtain ⟨k0, v0⟩ := e0
    by_cases h0 : k0 = k
    · simp only [mapSet, h0, if_true, List.mem_cons] at h
      rcases h with h | h
      · exact Or.inr h
      · exact Or.inl (List.mem_cons_of_mem _ h)
    · simp only [mapSet, h0, if_false, List.mem_cons] at h
      rcases h with h | h
      · exact Or.inl (h ▸ List.mem_cons_self _ _)
      · rcases ih h with h | h
        · exact Or.inl (List.mem_cons_of_mem _ h)
        · exact Or.inr h


/-- What one group does, in terms of its entry. -/
theorem parseGroup_eq (us : UserSchema) (toks : List String) :
    (parseGroup us toks).Fields =
        (match groupEntry toks with
         | some e => mapSet us.Fields e.1 e.2
         | none => us.Fields) ∧
      (parseGroup us toks).DefaultAll = (us.DefaultAll || decide (toks = ["..."])) := by
  match toks with
  | [] => simp [parseGroup, groupEntry]
  | [f] =>
    by_cases hf : f = "..."
    · simp [parseGroup, groupEntry, hf]
    · simp [parseGroup, groupEntry, hf]
  | [f, a] => simp [parseGroup, groupEntry]
  | f :: a :: b :: rest => simp [parseGroup, groupEntry]

/-- What a run of groups does, in terms of their entries. -/
theorem foldl_parseGroup (gs : List (List String)) :
    ∀ us : UserSchema,
      (gs.foldl parseGroup us).Fields = assignAll us.Fields (gs.filterMap groupEntry) ∧
        (gs.foldl parseGroup us).DefaultAll = (us.DefaultAll || decide (["..."] ∈ gs)) := by
  induction gs with
  | nil => intro us; simp [assignAll]
  | cons g gs ih =>
    intro us
    obtain ⟨h1, h2⟩ := ih (parseGroup us g)
    obtain ⟨g1, g2⟩ := parseGroup_eq us g
    rw [List.foldl_cons, h1, h2, g1, g2]
    constructor
    · cases hge : groupEntry g with
      | none => simp [List.filterMap_cons, hge]
      | some e => simp [List.filterMap_cons, hge, assignAll]
    · by_cases hg : g = ["..."]
      · simp [hg]
      · have hg2 : ¬ ["..."] = g := fun he => hg he.symm
        simp [hg, hg2]

/-- Reading a map after a run of assignments gives the alias of the last
assignment to the key, or what the map held before. -/
theorem mapGet_assignAll (es : List (String × String)) (f : String) :
    ∀ m, mapGet (assignAll m es) f =
      es.foldl (fun r e => if e.1 = f then some e.2 else r) (mapGet m f) := by
  induction es with
  | nil => intro m; rfl
  | cons e es ih =>
    intro m
    simp only [assignAll, List.foldl_cons] at ih ⊢
    rw [ih, mapGet_mapSet]

/-- A run of assignments keeps the keys of a map distinct. -/
theorem nodup_keys_assignAll (es : List (String × String)) :
    ∀ m : List (String × String), (m.map Prod.fst).Nodup →
      ((assignAll m es).map Prod.fst).Nodup := by
  induction es with
  | nil => intro m h; exact h
  | cons e es ih =>
    intro m h
    simp only [assignAll, List.foldl_cons] at ih ⊢
    exact ih _ (nodup_keys_mapSet m e.1 e.2 h)

/-- Every entry of a map after a run of assignments was there before or is one of
the assigned ones. -/
theorem mem_assignAll (es : List (String × String)) (x : String × String) :
    ∀ m : List (String × String), x ∈ assignAll m es → x ∈ m ∨ x ∈ es := by
  induction es with
  | nil => intro m h; exact Or.inl h
  | cons e es ih =>
    intro m h
    simp only [assignAll, List.foldl_cons] at ih h
    rcases ih _ h with h | h
    · rcases mem_mapSet m e.1 e.2 x h with h | h
      · exact Or.inl h
      · exact Or.inr (h ▸ List.mem_cons_self _ _)
    · exact Or.inr (List.mem_cons_of_mem _ h)

/-- The keys after a run of assignments are the keys before and the assigned keys. -/
theorem mem_keys_assignAll (es : List (String × String)) (x : String) :
    ∀ m : List (String × String),
      x ∈ (assignAll m es).map Prod.fst ↔ x ∈ m.map Prod.fst ∨ x ∈ es.map Prod.fst := by
  induction es with
  | nil => intro m; simp [assignAll]
  | cons e es ih =>
    intro m
    simp only [assignAll, List.foldl_cons] at ih ⊢
    rw [ih, mem_keys_mapSet]
    simp only [List.map_cons, List.mem_cons]
    tauto

/-- Assignments to keys that are new and pairwise distinct add the entries at the
end, in order. -/
theorem assignAll_distinct (es : List (String × String)) :
    ∀ m : List (String × String), ((m ++ es).map Prod.fst).Nodup → assignAll m es = m ++ es := by
  induction es with
  | nil => intro m _; simp [assignAll]
  | cons e es ih =>
    intro m h
    have hnot : e.1 ∉ m.map Prod.fst := by
      intro hm
      rw [List.map_append, List.nodup_append] at h
      exact h.2.2 hm (by simp)
    simp only [assignAll, List.foldl_cons] at ih ⊢
    rw [mapSet_of_not_mem m e.1 e.2 hnot, ih]
    · simp
    · simpa using h


/-- A group of whitespace only has no token. -/
theorem fields_blank (g : List Char) (h : ∀ c ∈ g, isSpace c = true) : fields g = [] := by
  induction g with
  | nil => rfl
  | cons c cs ih =>
    rw [fields_cons_space c cs (h c (List.mem_cons_self _ _))]
    exact ih (fun x hx => h x (List.mem_cons_of_mem _ hx))

/-- An empty or all-blank text is one group without tokens. -/
theorem schemaGroups_blank (schema : String) (h : schema.data.all isSpace = true) :
    schemaGroups schema = [[]] := by
  have hall : ∀ c ∈ schema.data, isSpace c = true := by simpa using h
  have hcomma : comma ∉ schema.data := by
    intro hm
    have := hall comma hm
    revert this
    decide
  unfold schemaGroups
  rw [splitComma_run _ hcomma]
  simp [fields_blank _ hall]

/-- The fields and the flag of the result, in terms of the entries and groups of
the text. -/
theorem parseUserSchema_eq (repoName schema : String) :
    (parseUserSchema repoName schema).Fields = assignAll [] (schemaEntries schema) ∧
      (parseUserSchema repoName schema).DefaultAll =
        (decide (["..."] ∈ schemaGroups schema) || schema.data.all isSpace) := by
  unfold parseUserSchema
  by_cases hb : schema.data.all isSpace = true
  · rw [if_pos hb]
    simp [schemaEntries, schemaGroups_blank schema hb, groupEntry, assignAll, hb]
  · rw [if_neg hb]
    obtain ⟨h1, h2⟩ := foldl_parseGroup (schemaGroups schema) ⟨false, []⟩
    refine ⟨h1, ?_⟩
    rw [h2]
    simp [hb]


/-- A group has the entry `f -> a` exactly when it is the single token `f = a`
other than `...`, or the two tokens `f a`. -/
theorem groupEntry_some (toks : List String) (f a : String) :
    groupEntry toks = some (f, a) ↔ (toks = [f] ∧ a = f ∧ f ≠ "...") ∨ toks = [f, a] := by
  match toks with
  | [] => simp [groupEntry]
  | [x] =>
    by_cases hx : x = "..."
    · subst hx
      simp [groupEntry]
      intro h _
      exact h.symm
    · simp only [groupEntry, hx, if_false, Option.some.injEq, Prod.mk.injEq, List.cons.injEq,
        and_true, ne_eq]
      constructor
      · rintro ⟨rfl, rfl⟩
        exact Or.inl ⟨rfl, rfl, hx⟩
      · rintro (⟨rfl, rfl, _⟩ | h)
        · exact ⟨rfl, rfl⟩
        · simp at h
  | [x, y] => simp [groupEntry]
  | x :: y :: z :: rest => simp [groupEntry]


/-- A group text holds no comma. -/
theorem GroupText.no_comma {g : List Char} {toks : List String} (h : GroupText g toks) :
    comma ∉ g := by
  induction h with
  | nil => simp
  | space c g toks hc _ ih =>
    intro hm
    rcases List.mem_cons.1 hm with he | hm
    · rw [← he] at hc
      revert hc
      decide
    · exact ih hm
  | tokEnd t ht =>
    intro hm
    exact (ht.2 comma hm).2 rfl
  | tok t s g toks ht hs _ ih =>
    intro hm
    rcases List.mem_append.1 hm with hm | hm
    · exact (ht.2 comma hm).2 rfl
    · exact ih hm

/-- The tokens `fields` finds in a group text are the tokens of the grammar. -/
theorem GroupText.fields_eq {g : List Char} {toks : List String} (h : GroupText g toks) :
    (fields g).map String.mk = toks := by
  induction h with
  | nil => rfl
  | space c g toks hc _ ih => rw [fields_cons_space c g hc, ih]
  | tokEnd t ht => rw [fields_run t ht.1 (fun c hc => (ht.2 c hc).1)]; rfl
  | tok t s g toks ht hs _ ih =>
    rw [fields_append_space t s g hs, fields_run t ht.1 (fun c hc => (ht.2 c hc).1),
      ← fields_cons_space s g hs, List.map_append, ih]
    rfl

/-- A text with a comma after a comma-free start splits there. -/
theorem splitComma_append_comma (g rest : List Char) (h : comma ∉ g) :
    splitComma (g ++ comma :: rest) = g :: splitComma rest := by
  induction g with
  | nil =>
    rw [List.nil_append]
    conv_lhs => unfold splitComma
    simp
  | cons c cs ih =>
    have hc : ¬ c = comma := fun he => h (he ▸ List.mem_cons_self _ _)
    have ih2 := ih (fun hm => h (List.mem_cons_of_mem _ hm))
    rw [List.cons_append]
    conv_lhs => unfold splitComma
    simp only [hc, if_false, ih2]

/-- The groups `schemaGroups` finds in a schema text are the groups of the
grammar. -/
theorem SchemaText.groups_eq {cs : List Char} {groups : List (List String)}
    (h : SchemaText cs groups) :
    (splitComma cs).map (fun g => (fields g).map String.mk) = groups := by
  induction h with
  | last g toks hg =>
    rw [splitComma_run g hg.no_comma]
    simp [hg.fields_eq]
  | group g toks rest groups hg _ ih =>
    rw [splitComma_append_comma g rest hg.no_comma, List.map_cons, ih, hg.fields_eq]


/-- A character that is neither whitespace nor a comma, put before a group text
that starts with a token, lengthens that token. -/
theorem GroupText.extend (c : Char) (hc : isSpace c = false) (hcc : c ≠ comma)
    {g : List Char} {toks : List String} (h : GroupText g toks) (d : Char) (ds : List Char)
    (hg : g = d :: ds) (hd : isSpace d = false) :
    ∃ t0 toks2, toks = String.mk t0 :: toks2 ∧ GroupText (c :: g) (String.mk (c :: t0) :: toks2) := by
  have hvalid : ∀ t : List Char, validToken t → validToken (c :: t) := by
    intro t ht
    refine ⟨by simp, ?_⟩
    intro x hx
    rcases List.mem_cons.1 hx with rfl | hx
    · exact ⟨hc, hcc⟩
    · exact ht.2 x hx
  cases h with
  | nil => simp at hg
  | space c2 g2 toks hc2 h2 =>
    simp only [List.cons.injEq] at hg
    rw [hg.1, hd] at hc2
    simp at hc2
  | tokEnd _ ht => exact ⟨_, [], rfl, GroupText.tokEnd _ (hvalid _ ht)⟩
  | tok t s g2 toks2 ht hs h2 =>
    exact ⟨t, toks2, rfl, GroupText.tok (c :: t) s g2 toks2 (hvalid t ht) hs h2⟩

/-- Every comma-free text is a group text, with the tokens `fields` finds. -/
theorem GroupText.of_fields (g : List Char) (h : comma ∉ g) :
    GroupText g ((fields g).map String.mk) := by
  induction g with
  | nil => exact GroupText.nil
  | cons c cs ih =>
    have hcc : c ≠ comma := fun he => h (he ▸ List.mem_cons_self _ _)
    have ih2 := ih (fun hm => h (List.mem_cons_of_mem _ hm))
    by_cases hc : isSpace c = true
    · rw [fields_cons_space c cs hc]
      exact GroupText.space c cs _ hc ih2
    · have hc2 : isSpace c = false := by simpa using hc
      cases cs with
      | nil =>
        have h1 : fields [c] = [[c]] := fields_run [c] (by simp) (by simpa using hc2)
        rw [h1]
        exact GroupText.tokEnd [c] ⟨by simp, by simpa using ⟨hc2, hcc⟩⟩
      | cons d ds =>
        by_cases hd : isSpace d = true
        · rw [fields_cons_then_space c d ds hc2 hd]
          exact GroupText.tok [c] d ds _ ⟨by simp, by simpa using ⟨hc2, hcc⟩⟩ hd ih2
        · have hd2 : isSpace d = false := by simpa using hd
          obtain ⟨t, ts, ht⟩ := List.exists_cons_of_ne_nil (fields_ne_nil d ds hd2)
          rw [fields_cons_then_token c d ds t ts hc2 hd2 ht]
          rw [ht] at ih2
          obtain ⟨t0, toks2, he, hgt⟩ := GroupText.extend c hc2 hcc ih2 d ds rfl hd2
          simp only [List.map_cons, List.cons.injEq] at he
          obtain ⟨he1, rfl⟩ := he
          have he2 : t = t0 := congrArg String.data he1
          rw [he2]
          exact hgt

/-- Joining a first group and further groups by commas. -/
theorem intercalate_cons_cons (g g2 : List Char) (gs : List (List Char)) :
    List.intercalate [comma] (g :: g2 :: gs) = g ++ comma :: List.intercalate [comma] (g2 :: gs) := by
  simp [List.intercalate, List.intersperse]

/-- Comma-free groups joined by commas are a schema text, with the tokens `fields`
finds in each. -/
theorem SchemaText.of_groups (gs : List (List Char)) (hne : gs ≠ [])
    (h : ∀ g ∈ gs, comma ∉ g) :
    SchemaText (List.intercalate [comma] gs) (gs.map (fun g => (fields g).map String.mk)) := by
  induction gs with
  | nil => exact absurd rfl hne
  | cons g gs ih =>
    cases gs with
    | nil =>
      have h1 : List.intercalate [comma] [g] = g := by simp [List.intercalate, List.intersperse]
      rw [h1]
      exact SchemaText.last g _ (GroupText.of_fields g (h g (List.mem_cons_self _ _)))
    | cons g2 gs2 =>
      rw [intercalate_cons_cons, List.map_cons]
      exact SchemaText.group g _ _ _ (GroupText.of_fields g (h g (List.mem_cons_self _ _)))
        (ih (by simp) (fun x hx => h x (List.mem_cons_of_mem _ hx)))

/-- Every text is a schema text. -/
theorem SchemaText.total (cs : List Char) : ∃ groups, SchemaText cs groups := by
  have h := SchemaText.of_groups (splitComma cs) (splitComma_ne_nil cs) (splitComma_no_comma cs)
  rw [splitComma_intercalate] at h
  exact ⟨_, h⟩

/-- C11: every input text is a schema text, that is, comma-separated groups of
whitespace-separated tokens, and for the groups of the text, read off the text by
the grammar alone, `parseUserSchema` returns the map that the assignments `f -> f`
for each single-token group `f` other than `...` and `f -> a` for each two-token
group `f a` produce, in group order: a read of the map gives the alias of the last
such group for the field, the keys are distinct, every entry of the map comes
from such a group, every such group's field is a key, and when no field is named
twice the map is exactly the list of those entries, so that groups of no or of
more than two tokens contribute nothing; `DefaultAll` is true exactly when some
group is the single token `...` or the text is empty or all blank, and when the
text is blank the map is empty.  A group of no or of more than two tokens leaves
the schema built so far as it is.  The three results of the test are reproduced. -/
theorem parseUserSchema_spec (repoName schema : String) :
    (∃ groups, SchemaText schema.data groups) ∧
    (∀ groups, SchemaText schema.data groups →
      (parseUserSchema repoName schema).Fields = assignAll [] (groups.filterMap groupEntry) ∧
      (∀ f, mapGet (parseUserSchema repoName schema).Fields f =
        lastAlias (groups.filterMap groupEntry) f) ∧
      ((parseUserSchema repoName schema).Fields.map Prod.fst).Nodup ∧
      (((groups.filterMap groupEntry).map Prod.fst).Nodup →
        (parseUserSchema repoName schema).Fields = groups.filterMap groupEntry) ∧
      (∀ f a, (f, a) ∈ (parseUserSchema repoName schema).Fields →
        ∃ toks ∈ groups, (toks = [f] ∧ a = f ∧ f ≠ "...") ∨ toks = [f, a]) ∧
      (∀ toks ∈ groups, ∀ f, ((toks = [f] ∧ f ≠ "...") ∨ ∃ a, toks = [f, a]) →
        f ∈ (parseUserSchema repoName schema).Fields.map Prod.fst) ∧
      ((parseUserSchema repoName schema).DefaultAll = true ↔
        ["..."] ∈ groups ∨ ∀ c ∈ schema.data, isSpace c = true) ∧
      ((∀ c ∈ schema.data, isSpace c = true) →
        (parseUserSchema repoName schema).Fields = [])) ∧
    (∀ (us : UserSchema) (toks : List String), toks.length = 0 ∨ 2 < toks.length →
      parseGroup us toks = us) ∧
    parseUserSchema "repo1" "a b,x z y,..." = ⟨true, [("a", "b")]⟩ ∧
    parseUserSchema "repo3" "a b,x,z y," = ⟨false, [("a", "b"), ("x", "x"), ("z", "y")]⟩ ∧
    parseUserSchema "repo2" " " = ⟨true, []⟩ := by
  obtain ⟨hF, hD⟩ := parseUserSchema_eq repoName schema
  refine ⟨SchemaText.total schema.data, ?_, ?_, by decide, by decide, by decide⟩
  · intro groups hst
    have hg : schemaGroups schema = groups := hst.groups_eq
    have he : schemaEntries schema = groups.filterMap groupEntry := by
      unfold schemaEntries
      rw [hg]
    have hblank : schema.data.all isSpace = true ↔ ∀ c ∈ schema.data, isSpace c = true := by
      simp
    rw [he] at hF
    rw [hg] at hD
    refine ⟨hF, ?_, ?_, ?_, ?_, ?_, ?_, ?_⟩
    · intro f
      rw [hF, mapGet_assignAll]
      rfl
    · rw [hF]
      exact nodup_keys_assignAll _ [] (by simp)
    · intro hnd
      rw [hF, assignAll_distinct _ [] (by simpa using hnd)]
      simp
    · intro f a hmem
      rw [hF] at hmem
      rcases mem_assignAll _ (f, a) [] hmem with h | h
      · simp at h
      · obtain ⟨toks, ht, hge⟩ := List.mem_filterMap.1 h
        exact ⟨toks, ht, (groupEntry_some toks f a).1 hge⟩
    · intro toks ht f hf
      rw [hF, mem_keys_assignAll]
      right
      rcases hf with ⟨h1, h2⟩ | ⟨a, h1⟩
      · exact List.mem_map.2 ⟨(f, f), List.mem_filterMap.2
          ⟨toks, ht, (groupEntry_some toks f f).2 (Or.inl ⟨h1, rfl, h2⟩)⟩, rfl⟩
      · exact List.mem_map.2 ⟨(f, a), List.mem_filterMap.2
          ⟨toks, ht, (groupEntry_some toks f a).2 (Or.inr h1)⟩, rfl⟩
    · rw [hD, ← hblank]
      simp
    · intro hb
      have hb2 := hblank.2 hb
      have hgb := schemaGroups_blank schema hb2
      rw [hg] at hgb
      rw [hF, hgb]
      simp [groupEntry, assignAll]
  · intro us toks hl
    match toks with
    | [] => rfl
    | [x] => simp at hl
    | [x, y] => simp at hl
    | x :: y :: z :: rest => rfl

/-- Witness for C11: the text `z y,x`, read by the grammar as the groups `z y` and
`x`, whose fields are named once each, and the blank text of one space. -/
theorem parseUserSchema_spec_witness :
    SchemaText "z y,x".data [["z", "y"], ["x"]] ∧
      (([["z", "y"], ["x"]].filterMap groupEntry).map Prod.fst).Nodup ∧
      (parseUserSchema "repo" "z y,x").Fields = [("z", "y"), ("x", "x")] ∧
      mapGet (parseUserSchema "repo" "z y,x").Fields "z" = some "y" ∧
      (∃ toks ∈ [["z", "y"], ["x"]],
        (toks = ["z"] ∧ "y" = "z" ∧ "z" ≠ "...") ∨ toks = ["z", "y"]) ∧
      "x" ∈ (parseUserSchema "repo" "z y,x").Fields.map Prod.fst ∧
      ((parseUserSchema "repo" "z y,x").DefaultAll = true ↔
        ["..."] ∈ [["z", "y"], ["x"]] ∨ ∀ c ∈ "z y,x".data, isSpace c = true) ∧
      SchemaText " ".data [[]] ∧ (parseUserSchema "repo2" " ").Fields = [] ∧
      parseGroup ⟨false, []⟩ ["x", "z", "y"] = ⟨false, []⟩ := by
  have hv : ∀ t : List Char, t ≠ [] → (∀ c ∈ t, isSpace c = false ∧ c ≠ comma) → validToken t :=
    fun _ h1 h2 => ⟨h1, h2⟩
  have hzy : GroupText ("z".data ++ Char.ofNat 32 :: "y".data) ["z", "y"] :=
    GroupText.tok "z".data (Char.ofNat 32) "y".data ["y"] (hv _ (by decide) (by decide))
      (by decide)
      (GroupText.space (Char.ofNat 32) "y".data ["y"] (by decide)
        (GroupText.tokEnd "y".data (hv _ (by decide) (by decide))))
  have hx : GroupText "x".data ["x"] := GroupText.tokEnd "x".data (hv _ (by decide) (by decide))
  have hst : SchemaText "z y,x".data [["z", "y"], ["x"]] :=
    SchemaText.group _ _ _ _ hzy (SchemaText.last _ _ hx)
  have hsp : SchemaText " ".data [[]] :=
    SchemaText.last _ _ (GroupText.space (Char.ofNat 32) [] [] (by decide) GroupText.nil)
  have h := (parseUserSchema_spec "repo" "z y,x").2.1 _ hst
  have hb := (parseUserSchema_spec "repo2" " ").2.1 _ hsp
  exact ⟨hst, by decide, h.2.2.2.1 (by decide), h.2.1 "z",
    h.2.2.2.2.1 "z" "y" (by decide), h.2.2.2.2.2.1 ["x"] (by decide) "x" (Or.inl ⟨rfl, by decide⟩),
    h.2.2.2.2.2.2.1, hsp, hb.2.2.2.2.2.2.2 (by decide),
    (parseUserSchema_spec "repo" "z y,x").2.2.1 ⟨false, []⟩ ["x", "z", "y"] (Or.inr (by decide))⟩

end sender

namespace reader

/-- A pass of the end-of-file branch that returns made no not-exist retry sleep. -/
theorem onEOF_done_quiet (ops : PathOps) (sf : SeqFile) (w : World) (n : Nat) (err : Option Err)
    (retry : Nat) (r : ReadResult) (sf1 : SeqFile) (w1 : World)
    (h : sf.onEOF ops w n err retry = some (Step.done r sf1 w1)) : w.Quiet w1 := by
  unfold SeqFile.onEOF at h
  split at h
  · simp at h
  · rename_i fi e1 w2 hn
    obtain ⟨hc, ht⟩ := nextFile_world ops sf w _ _ hn
    have hq : w.Quiet w2 := World.Quiet.of_eq hc ht
    split at h
    · split at h
      · simp only [Option.some.injEq, Step.done.injEq] at h
        obtain ⟨_, _, rfl⟩ := h
        exact hq
      · simp at h
    · split at h
      · simp only [Option.some.injEq, Step.done.injEq] at h
        obtain ⟨_, _, rfl⟩ := h
        exact hq
      · split at h
        · rename_i fi0
          split at h
          · simp at h
          · rename_i e2 sf2 w4 ho
            simp only [Option.some.injEq, Step.done.injEq] at h
            obtain ⟨_, _, rfl⟩ := h
            exact (hq.trans (World.Quiet.log w2 _ (by simp))).trans
              (open_quiet ops sf _ _ _ _ _ ho)
          · simp at h
        · simp only [Option.some.injEq, Step.done.injEq] at h
          obtain ⟨_, _, rfl⟩ := h
          exact hq.trans (World.Quiet.log w2 _ (by decide))

/-- A pass of the loop body that returns made no not-exist retry sleep. -/
theorem readStep_done_sleeps (ops : PathOps) (plen : Nat) (sf : SeqFile) (w : World)
    (n retry : Nat) (r : ReadResult) (sf1 : SeqFile) (w1 : World)
    (h : sf.readStep ops plen w n retry = some (Step.done r sf1 w1)) :
    ∃ evs, w1.trace = w.trace ++ evs ∧ evs.count Event.sleepVanished = 0 := by
  have hfrom : ∀ (sf0 : SeqFile) (w0 : World),
      sf0.readFrom ops plen w0 n retry = some (Step.done r sf1 w1) →
      ∃ evs, w1.trace = w0.trace ++ evs ∧ evs.count Event.sleepVanished = 0 := by
    intro sf0 w0 h0
    unfold SeqFile.readFrom at h0
    split at h0
    · simp at h0
    · dsimp only at h0
      split at h0
      · simp at h0
      · split at h0
        · simp only [Option.some.injEq, Step.done.injEq] at h0
          obtain ⟨_, _, rfl⟩ := h0
          exact ⟨[], by simp, rfl⟩
        · exact (onEOF_done_quiet ops _ _ _ _ _ _ _ _ h0).2
  unfold SeqFile.readStep at h
  split at h
  · split at h
    · simp only [Option.some.injEq, Step.done.injEq] at h
      obtain ⟨_, _, rfl⟩ := h
      exact ⟨[], by simp, rfl⟩
    · split at h
      · simp at h
      · simp at h
      · rename_i sf2 w2 hn
        obtain ⟨_, ht⟩ := newOpen_world ops sf w _ _ _ hn
        obtain ⟨evs, h1, h2⟩ := hfrom _ _ h
        exact ⟨evs, by rw [h1, ht], h2⟩
  · exact hfrom _ _ h

/-- From any pass on, a run of the loop of `Read` that returns, through whichever
`return`, has made not-exist retry sleeps that together with the retry counter it
started from number at most 3, and exactly 3 when it returns through the give-up. -/
theorem readLoop_sleeps (ops : PathOps) (plen : Nat) (fuel : Nat) :
    ∀ (sf : SeqFile) (w : World) (n : Nat) (err : Option Err) (retry : Nat) (r : ReadResult)
      (sf' : SeqFile) (w' : World),
      readLoop ops plen fuel sf w n err retry = some (r, sf', w') → retry ≤ 3 →
      ∃ evs, w'.trace = w.trace ++ evs ∧ retry + evs.count Event.sleepVanished ≤ 3 ∧
        (r.exit = Exit.vanished → retry + evs.count Event.sleepVanished = 3) := by
  induction fuel with
  | zero => intro sf w n err retry r sf' w' h; simp [readLoop] at h
  | succ fuel ih =>
    intro sf w n err retry r sf' w' h hr
    unfold readLoop at h
    split at h
    · simp only [Option.some.injEq, Prod.mk.injEq] at h
      obtain ⟨rfl, _, rfl⟩ := h
      exact ⟨[], by simp, by simpa using hr, fun hx => by simp at hx⟩
    · split at h
      · simp at h
      · rename_i r1 sf1 w1 hs
        simp only [Option.some.injEq, Prod.mk.injEq] at h
        obtain ⟨rfl, rfl, rfl⟩ := h
        obtain ⟨evs, h1, h2⟩ := readStep_done_sleeps ops plen sf w n retry _ _ _ hs
        refine ⟨evs, h1, by omega, fun hx => ?_⟩
        have := (readStep_vanished ops plen sf w n retry _ _ _ hs hx hr).2.1
        omega
      · rename_i sf1 w1 n1 err1 retry1 hs
        obtain ⟨_, h2, evs1, h3, h4⟩ := readStep_next ops plen sf w n retry _ _ _ _ _ hs hr
        obtain ⟨evs2, g1, g2, g3⟩ := ih sf1 w1 n1 err1 retry1 r sf' w' h h2
        refine ⟨evs1 ++ evs2, ?_, ?_, fun hx => ?_⟩
        · rw [g1, h3, List.append_assoc]
        · rw [List.count_append]
          omega
        · rw [List.count_append]
          have := g3 hx
          omega

/-- After any number `k` of passes of the loop of `Read`, the run has returned, or
has asked for an outcome the script does not hold, or stands at a loop state from
which the rest of the run goes on, whose retry counter is the counter at the start
plus the number of not-exist retry sleeps made since, at most 3, and whose `n` is
the `n` at the start plus the bytes copied since. -/
theorem readLoop_passes (ops : PathOps) (plen : Nat) (k : Nat) :
    ∀ (sf : SeqFile) (w : World) (n : Nat) (err : Option Err) (retry : Nat), retry ≤ 3 →
      (∃ res, ∀ fuel, readLoop ops plen (k + fuel) sf w n err retry = some res) ∨
      (∀ fuel, readLoop ops plen (k + fuel) sf w n err retry = none) ∨
      (∃ sfk wk nk errk retryk evs,
        (∀ fuel, readLoop ops plen (k + fuel) sf w n err retry =
          readLoop ops plen fuel sfk wk nk errk retryk) ∧
        wk.trace = w.trace ++ evs ∧ retryk = retry + evs.count Event.sleepVanished ∧
        retryk ≤ 3 ∧ wk.copied + n = w.copied + nk) := by
  induction k with
  | zero =>
    intro sf w n err retry hr
    exact Or.inr (Or.inr ⟨sf, w, n, err, retry, [], fun fuel => by rw [Nat.zero_add],
      by simp, by simp, hr, rfl⟩)
  | succ k ih =>
    intro sf w n err retry hr
    have hk : ∀ fuel, k + 1 + fuel = (k + fuel) + 1 := fun fuel => by omega
    by_cases hn : ¬ n < plen
    · left
      refine ⟨(⟨n, err, Exit.full⟩, sf, w), fun fuel => ?_⟩
      rw [hk, readLoop, if_pos hn]
    · cases hs : sf.readStep ops plen w n retry with
      | none =>
        right; left
        intro fuel
        rw [hk, readLoop, if_neg hn, hs]
      | some st =>
        cases st with
        | done r sf1 w1 =>
          left
          refine ⟨(r, sf1, w1), fun fuel => ?_⟩
          rw [hk, readLoop, if_neg hn, hs]
        | next sf1 w1 n1 err1 retry1 =>
          obtain ⟨h1, h2, evs1, h3, h4⟩ :=
            readStep_next ops plen sf w n retry _ _ _ _ _ hs hr
          have hstep : ∀ fuel, readLoop ops plen (k + 1 + fuel) sf w n err retry =
              readLoop ops plen (k + fuel) sf1 w1 n1 err1 retry1 := by
            intro fuel
            rw [hk, readLoop, if_neg hn, hs]
          rcases ih sf1 w1 n1 err1 retry1 h2 with ⟨res, hres⟩ | hnone | ⟨sfk, wk, nk, errk, retryk, evs, g1, g2, g3, g4, g5⟩
          · exact Or.inl ⟨res, fun fuel => by rw [hstep, hres]⟩
          · exact Or.inr (Or.inl (fun fuel => by rw [hstep, hnone]))
          · refine Or.inr (Or.inr ⟨sfk, wk, nk, errk, retryk, evs1 ++ evs, ?_, ?_, ?_, g4, ?_⟩)
            · intro fuel
              rw [hstep, g1]
            · rw [g2, h3, List.append_assoc]
            · rw [List.count_append]
              omega
            · omega


/-- One pass of the loop of `Read` without an open file in which `nextFile`
reports not-exist: `newOpen` returns an error, and `Read` sleeps and goes round
again with the retry counter as it was, whatever it is. -/
theorem readLoop_newOpen_report (ops : PathOps) (plen fuel : Nat) (sf : SeqFile) (w : World)
    (n : Nat) (err : Option Err) (retry : Nat) (fi : Option FileInfo) (w1 : World)
    (hn : n < plen) (hf : sf.f = none) (hs : ¬ sf.stopped > 0)
    (hnext : sf.nextFile ops w = some ((fi, some Err.notExist), w1)) :
    readLoop ops plen (fuel + 1) sf w n err retry =
      readLoop ops plen fuel sf { w1 with trace := w1.trace ++ [Event.sleepNewOpen] } n
        (some (Err.other "did not find any file in dir")) retry := by
  have hno : sf.newOpen ops w = some (some (Err.other "did not find any file in dir"), sf, w1) := by
    simp [SeqFile.newOpen, hnext, isNotExist]
  have hstep : sf.readStep ops plen w n retry =
      some (Step.next sf { w1 with trace := w1.trace ++ [Event.sleepNewOpen] } n
        (some (Err.other "did not find any file in dir")) retry) := by
    unfold SeqFile.readStep
    rw [hf]
    simp only [hs, if_false, hno]
  rw [readLoop, if_neg (by omega), hstep]

/-- A pass of the loop body reaches the file read with the state it started from
when a file is open, and with the state `newOpen` left when no file was open, the
reader is not stopped and `newOpen` returned nil. -/
theorem readStep_reaches (ops : PathOps) (plen : Nat) (sf : SeqFile) (w : World) (n retry : Nat)
    (sfr : SeqFile) (wr : World)
    (hreach : (∃ h, sf.f = some h ∧ sfr = sf ∧ wr = w) ∨
      (sf.f = none ∧ ¬ sf.stopped > 0 ∧ sf.newOpen ops w = some (none, sfr, wr))) :
    sf.readStep ops plen w n retry = sfr.readFrom ops plen wr n retry := by
  rcases hreach with ⟨h, hf, rfl, rfl⟩ | ⟨hf, hs, hno⟩
  · unfold SeqFile.readStep
    rw [hf]
  · unfold SeqFile.readStep
    rw [hf]
    simp only [hs, if_false, hno]

/-- One pass of the loop of `Read` that reaches the file read, meets end of file
and a not-exist report of `nextFile`: with 3 or more on the retry counter `Read`
returns `n, io.EOF`, otherwise it sleeps and goes round again with the counter
raised by one. -/
theorem readLoop_report_reached (ops : PathOps) (plen fuel : Nat) (sf : SeqFile) (w : World)
    (n : Nat) (err : Option Err) (retry : Nat) (sfr : SeqFile) (wr : World)
    (rrest : List ReadOutcome) (fi : Option FileInfo) (w2 : World) (hn : n < plen)
    (hreach : (∃ h, sf.f = some h ∧ sfr = sf ∧ wr = w) ∨
      (sf.f = none ∧ ¬ sf.stopped > 0 ∧ sf.newOpen ops w = some (none, sfr, wr)))
    (hreads : wr.reads = ReadOutcome.eof :: rrest)
    (hnext : ({ sfr with offset := wrapInt64 sfr.offset } : SeqFile).nextFile ops
      { wr with reads := rrest } = some ((fi, some Err.notExist), w2)) :
    readLoop ops plen (fuel + 1) sf w n err retry =
      if retry ≥ 3 then
        some (⟨n, some Err.eof, Exit.vanished⟩, { sfr with offset := wrapInt64 sfr.offset }, w2)
      else
        readLoop ops plen fuel { sfr with offset := wrapInt64 sfr.offset }
          { w2 with trace := w2.trace ++ [Event.sleepVanished] } n (some Err.eof) (retry + 1) := by
  have hfrom : sfr.readFrom ops plen wr n retry =
      if retry ≥ 3 then
        some (Step.done ⟨n, some Err.eof, Exit.vanished⟩
          { sfr with offset := wrapInt64 sfr.offset } w2)
      else
        some (Step.next { sfr with offset := wrapInt64 sfr.offset }
          { w2 with trace := w2.trace ++ [Event.sleepVanished] } n (some Err.eof) (retry + 1)) := by
    simp only [SeqFile.readFrom, hreads, ReadOutcome.n1, ReadOutcome.err, Nat.cast_zero,
      Nat.add_zero, add_zero, SeqFile.onEOF]
    simp [hnext, isNotExist]
  rw [readLoop, if_neg (by omega), readStep_reaches ops plen sf w n retry sfr wr hreach, hfrom]
  by_cases hr : retry ≥ 3 <;> simp only [hr, if_true, if_false]

/-- One pass of the loop of `Read` that reaches the file read, meets end of file, a
new file found by `nextFile` and an `open` of it that returns nil: `Read` goes
round again on the new file with the retry counter as it was. -/
theorem readLoop_switch_reached (ops : PathOps) (plen fuel : Nat) (sf : SeqFile) (w : World)
    (n : Nat) (err : Option Err) (retry : Nat) (sfr : SeqFile) (wr : World)
    (rrest : List ReadOutcome) (fi0 : FileInfo) (w2 : World) (sf2 : SeqFile) (w4 : World)
    (hn : n < plen)
    (hreach : (∃ h, sf.f = some h ∧ sfr = sf ∧ wr = w) ∨
      (sf.f = none ∧ ¬ sf.stopped > 0 ∧ sf.newOpen ops w = some (none, sfr, wr)))
    (hreads : wr.reads = ReadOutcome.eof :: rrest)
    (hnext : ({ sfr with offset := wrapInt64 sfr.offset } : SeqFile).nextFile ops
      { wr with reads := rrest } = some ((some fi0, none), w2))
    (hopen : ({ sfr with offset := wrapInt64 sfr.offset } : SeqFile).open ops
      { w2 with trace := w2.trace ++ [Event.logNextFile fi0.name] } (some fi0) =
        some (none, sf2, w4)) :
    readLoop ops plen (fuel + 1) sf w n err retry = readLoop ops plen fuel sf2 w4 n none retry := by
  have hfrom : sfr.readFrom ops plen wr n retry = some (Step.next sf2 w4 n none retry) := by
    simp only [SeqFile.readFrom, hreads, ReadOutcome.n1, ReadOutcome.err, Nat.cast_zero,
      Nat.add_zero, add_zero, SeqFile.onEOF]
    simp [hnext, hopen, isNotExist]
  rw [readLoop, if_neg (by omega), readStep_reaches ops plen sf w n retry sfr wr hreach, hfrom]

/-- C7 (amended): in every `Read` that returns, through whichever `return`, at most
3 not-exist retry sleeps were made, and exactly 3 when it returns through the
give-up, which returns `io.EOF` with `n` the number of bytes copied during the
call.  After any number of passes of a call that is still running, the retry
counter is the number of not-exist retry sleeps the call has made so far, at
most 3, and `n` the number of bytes copied so far.  A pass that reaches the file
read (a file is open, or `newOpen` has just opened one) and meets end of file and a
not-exist report of `nextFile` returns `n, io.EOF` exactly when the counter has
reached 3, and otherwise sleeps and goes round again with the counter raised by
one; such a pass that instead switches to a new file goes round again with the
counter as it was; a pass without an open file in which `nextFile` reports
not-exist sleeps and goes round again with the counter as it was, whatever it is. -/
theorem Read_vanished_bound (ops : PathOps) :
    (∀ (sf : SeqFile) (w : World) (plen fuel : Nat) (r : ReadResult) (sf' : SeqFile) (w' : World),
      sf.Read ops w plen fuel = some (r, sf', w') →
      ∃ evs, w'.trace = w.trace ++ evs ∧ evs.count Event.sleepVanished ≤ 3 ∧
        (r.exit = Exit.vanished →
          evs.count Event.sleepVanished = 3 ∧ r.err = some Err.eof ∧
            w'.copied = w.copied + r.n)) ∧
    (∀ (sf : SeqFile) (w : World) (plen k : Nat),
      (∃ res, ∀ fuel, sf.Read ops w plen (k + fuel) = some res) ∨
      (∀ fuel, sf.Read ops w plen (k + fuel) = none) ∨
      (∃ sfk wk nk errk evs,
        (∀ fuel, sf.Read ops w plen (k + fuel) =
          readLoop ops plen fuel sfk wk nk errk (evs.count Event.sleepVanished)) ∧
        wk.trace = w.trace ++ evs ∧ evs.count Event.sleepVanished ≤ 3 ∧
        wk.copied = w.copied + nk)) ∧
    (∀ (plen fuel : Nat) (sf : SeqFile) (w : World) (n : Nat) (err : Option Err) (retry : Nat)
        (sfr : SeqFile) (wr : World) (rrest : List ReadOutcome) (fi : Option FileInfo)
        (w2 : World),
      n < plen →
      ((∃ h, sf.f = some h ∧ sfr = sf ∧ wr = w) ∨
        (sf.f = none ∧ ¬ sf.stopped > 0 ∧ sf.newOpen ops w = some (none, sfr, wr))) →
      wr.reads = ReadOutcome.eof :: rrest →
      ({ sfr with offset := wrapInt64 sfr.offset } : SeqFile).nextFile ops
        { wr with reads := rrest } = some ((fi, some Err.notExist), w2) →
      readLoop ops plen (fuel + 1) sf w n err retry =
        if retry ≥ 3 then
          some (⟨n, some Err.eof, Exit.vanished⟩, { sfr with offset := wrapInt64 sfr.offset }, w2)
        else
          readLoop ops plen fuel { sfr with offset := wrapInt64 sfr.offset }
            { w2 with trace := w2.trace ++ [Event.sleepVanished] } n (some Err.eof)
            (retry + 1)) ∧
    (∀ (plen fuel : Nat) (sf : SeqFile) (w : World) (n : Nat) (err : Option Err) (retry : Nat)
        (sfr : SeqFile) (wr : World) (rrest : List ReadOutcome) (fi0 : FileInfo) (w2 : World)
        (sf2 : SeqFile) (w4 : World),
      n < plen →
      ((∃ h, sf.f = some h ∧ sfr = sf ∧ wr = w) ∨
        (sf.f = none ∧ ¬ sf.stopped > 0 ∧ sf.newOpen ops w = some (none, sfr, wr))) →
      wr.reads = ReadOutcome.eof :: rrest →
      ({ sfr with offset := wrapInt64 sfr.offset } : SeqFile).nextFile ops
        { wr with reads := rrest } = some ((some fi0, none), w2) →
      ({ sfr with offset := wrapInt64 sfr.offset } : SeqFile).open ops
        { w2 with trace := w2.trace ++ [Event.logNextFile fi0.name] } (some fi0) =
          some (none, sf2, w4) →
      readLoop ops plen (fuel + 1) sf w n err retry =
        readLoop ops plen fuel sf2 w4 n none retry) ∧
    (∀ (plen fuel : Nat) (sf : SeqFile) (w : World) (n : Nat) (err : Option Err) (retry : Nat)
        (fi : Option FileInfo) (w1 : World),
      n < plen → sf.f = none → ¬ sf.stopped > 0 →
      sf.nextFile ops w = some ((fi, some Err.notExist), w1) →
      readLoop ops plen (fuel + 1) sf w n err retry =
        readLoop ops plen fuel sf { w1 with trace := w1.trace ++ [Event.sleepNewOpen] } n
          (some (Err.other "did not find any file in dir")) retry) := by
  refine ⟨?_, ?_, ?_, ?_, ?_⟩
  · intro sf w plen fuel r sf' w' h
    obtain ⟨evs, h1, h2, h3⟩ := readLoop_sleeps ops plen fuel sf w 0 none 0 r sf' w' h (by omega)
    refine ⟨evs, h1, by omega, fun hx => ?_⟩
    obtain ⟨g1, g2, _⟩ := readLoop_vanished ops plen fuel sf w 0 none 0 r sf' w' h hx (by omega)
    have := h3 hx
    exact ⟨by omega, g2, by omega⟩
  · intro sf w plen k
    rcases readLoop_passes ops plen k sf w 0 none 0 (by omega) with
      h | h | ⟨sfk, wk, nk, errk, retryk, evs, g1, g2, g3, g4, g5⟩
    · exact Or.inl h
    · exact Or.inr (Or.inl h)
    · have hr : retryk = evs.count Event.sleepVanished := by omega
      subst hr
      exact Or.inr (Or.inr ⟨sfk, wk, nk, errk, evs, g1, g2, g4, by omega⟩)
  · intro plen fuel sf w n err retry sfr wr rrest fi w2 hn hreach hreads hnext
    exact readLoop_report_reached ops plen fuel sf w n err retry sfr wr rrest fi w2 hn hreach
      hreads hnext
  · intro plen fuel sf w n err retry sfr wr rrest fi0 w2 sf2 w4 hn hreach hreads hnext hopen
    exact readLoop_switch_reached ops plen fuel sf w n err retry sfr wr rrest fi0 w2 sf2 w4 hn
      hreach hreads hnext hopen
  · intro plen fuel sf w n err retry fi w1 hn hf hs hnext
    exact readLoop_newOpen_report ops plen fuel sf w n err retry fi w1 hn hf hs hnext


set_option maxRecDepth 8000 in
/-- Witness for C7 (amended): a `Read` that copies 5 bytes and gives up on the
fourth not-exist report after an end of file; a `Read` that starts without a file
and gives up after three not-exist reports inside `newOpen` and four more after
an end of file; the state of the first call after four passes; and single passes
that give up with the counter at 3, retry with it at 2, retry with it at 0 right
after `newOpen` has opened the first file, switch to `b.log`, and retry
`newOpen`. -/
theorem Read_vanished_bound_witness :
    (∃ sf' w' evs, cursorKnown.Read slashPath abandonedWorld 16 10 =
        some (⟨5, some Err.eof, Exit.vanished⟩, sf', w') ∧
      w'.trace = abandonedWorld.trace ++ evs ∧ evs.count Event.sleepVanished = 3 ∧
      w'.copied = abandonedWorld.copied + 5) ∧
    (∃ sf' w' evs, cursorNone.Read slashPath startupWorld 16 10 =
        some (⟨0, some Err.eof, Exit.vanished⟩, sf', w') ∧
      w'.trace = startupWorld.trace ++ evs ∧ evs.count Event.sleepVanished = 3 ∧
      w'.trace.count Event.sleepNewOpen = 3) ∧
    (∃ sfk wk nk errk evs,
      (∀ fuel, cursorKnown.Read slashPath abandonedWorld 16 (4 + fuel) =
        readLoop slashPath 16 fuel sfk wk nk errk (evs.count Event.sleepVanished)) ∧
      wk.trace = abandonedWorld.trace ++ evs ∧ evs.count Event.sleepVanished ≤ 3 ∧
      wk.copied = abandonedWorld.copied + nk) ∧
    readLoop slashPath 16 (0 + 1) { cursorKnown with offset := 105 } fourthReportWorld 5
        (some Err.eof) 3 =
      some (⟨5, some Err.eof, Exit.vanished⟩, { cursorKnown with offset := 105 },
        { fourthReportWorld with reads := [], stats := [], minFiles := [] }) ∧
    readLoop slashPath 16 (1 + 1) { cursorKnown with offset := 105 } fourthReportWorld 5
        (some Err.eof) 2 =
      readLoop slashPath 16 1 { cursorKnown with offset := 105 }
        { fourthReportWorld with
          reads := [], stats := [], minFiles := []
          trace := fourthReportWorld.trace ++ [Event.sleepVanished] } 5 (some Err.eof) 3 ∧
    readLoop slashPath 16 (1 + 1) cursorNone firstFileWorld 0 none 0 =
      readLoop slashPath 16 1
        { cursorKnown with currFile := "/logs/b.log", f := some ⟨4⟩, offset := 0, inode := 8 }
        { quietWorld with trace := [Event.sleepVanished] } 0 (some Err.eof) 1 ∧
    readLoop slashPath 16 (1 + 1) cursorKnown { foundWorld with reads := [ReadOutcome.eof] } 0
        none 3 =
      readLoop slashPath 16 1
        { cursorKnown with currFile := "/logs/b.log", f := some ⟨4⟩, offset := 0, inode := 8 }
        { quietWorld with
          doneFiles := ["/logs/a.log"]
          trace := [Event.logNextFile "b.log", Event.logStartTail "b.log"] } 0 none 3 ∧
    readLoop slashPath 16 (1 + 1) cursorNone
        { quietWorld with stats := [Except.error Err.notExist],
                          minFiles := [Except.error Err.notExist] } 0 none 3 =
      readLoop slashPath 16 1 cursorNone { quietWorld with trace := [Event.sleepNewOpen] } 0
        (some (Err.other "did not find any file in dir")) 3 := by
  have h1 : cursorKnown.Read slashPath abandonedWorld 16 10 =
      some (⟨5, some Err.eof, Exit.vanished⟩, { cursorKnown with offset := 105 },
        { quietWorld with
          copied := 5
          trace := [Event.sleepVanished, Event.sleepVanished, Event.sleepVanished] }) := by
    decide
  have h2 : cursorNone.Read slashPath startupWorld 16 10 =
      some (⟨0, some Err.eof, Exit.vanished⟩,
        { cursorKnown with currFile := "/logs/b.log", f := some ⟨4⟩, offset := 0, inode := 8 },
        { quietWorld with
          trace := [Event.sleepNewOpen, Event.sleepNewOpen, Event.sleepNewOpen,
            Event.sleepVanished, Event.sleepVanished, Event.sleepVanished] }) := by
    decide
  have h4 : cursorKnown.Read slashPath abandonedWorld 16 (4 + 0) = none := by decide
  refine ⟨?_, ?_, ?_, ?_, ?_, ?_, ?_, ?_⟩
  · obtain ⟨evs, ht, _, hv⟩ := (Read_vanished_bound slashPath).1 _ _ _ _ _ _ _ h1
    exact ⟨_, _, evs, h1, ht, (hv rfl).1, (hv rfl).2.2⟩
  · obtain ⟨evs, ht, _, hv⟩ := (Read_vanished_bound slashPath).1 _ _ _ _ _ _ _ h2
    exact ⟨_, _, evs, h2, ht, (hv rfl).1, by decide⟩
  · rcases (Read_vanished_bound slashPath).2.1 cursorKnown abandonedWorld 16 4 with
      ⟨res, hres⟩ | hnone | hstate
    · have := hres 0
      rw [h4] at this
      simp at this
    · have := hnone 6
      rw [show 4 + 6 = 10 from rfl, h1] at this
      simp at this
    · exact hstate
  · exact (Read_vanished_bound slashPath).2.2.1 16 0 { cursorKnown with offset := 105 }
      fourthReportWorld 5 (some Err.eof) 3 _ _ [] none
      { fourthReportWorld with reads := [], stats := [], minFiles := [] }
      (by decide) (Or.inl ⟨⟨3⟩, rfl, rfl, rfl⟩) rfl (by decide)
  · exact (Read_vanished_bound slashPath).2.2.1 16 1 { cursorKnown with offset := 105 }
      fourthReportWorld 5 (some Err.eof) 2 _ _ [] none
      { fourthReportWorld with reads := [], stats := [], minFiles := [] }
      (by decide) (Or.inl ⟨⟨3⟩, rfl, rfl, rfl⟩) rfl (by decide)
  · exact (Read_vanished_bound slashPath).2.2.1 16 1 cursorNone firstFileWorld 0 none 0
      { cursorKnown with currFile := "/logs/b.log", f := some ⟨4⟩, offset := 0, inode := 8 }
      { firstFileWorld with
        stats := [Except.ok fileB], minFiles := [Except.error Err.notExist], opens := [] }
      [] none quietWorld
      (by decide) (Or.inr ⟨rfl, by decide, by decide⟩) rfl (by decide)
  · exact (Read_vanished_bound slashPath).2.2.2.1 16 1 cursorKnown
      { foundWorld with reads := [ReadOutcome.eof] } 0 none 3 _ _ [] fileB
      { foundWorld with stats := [], minFiles := [] }
      { cursorKnown with currFile := "/logs/b.log", f := some ⟨4⟩, offset := 0, inode := 8 }
      { quietWorld with
        doneFiles := ["/logs/a.log"]
        trace := [Event.logNextFile "b.log", Event.logStartTail "b.log"] }
      (by decide) (Or.inl ⟨⟨3⟩, rfl, rfl, rfl⟩) rfl (by decide) (by decide)
  · exact (Read_vanished_bound slashPath).2.2.2.2 16 1 cursorNone
      { quietWorld with stats := [Except.error Err.notExist],
                        minFiles := [Except.error Err.notExist] } 0 none 3 none quietWorld
      (by decide) rfl (by decide) (by decide)

end reader
